import Mathlib

/-!
# Verification of the `Pooler` thread pool (src/pooler.h)

This file is a shallow embedding of the round-barrier synchronization protocol
implemented by `class Pooler` in `src/pooler.h`, together with proofs of the
specification's claims about it.

## Modelling choices

The pool is a concurrent program: one coordinator thread (any caller of
`Pooler::run` / `Pooler::stop`) and `_THREAD_COUNT` persistent worker threads
running `Pooler::threadAction`.  We model it as an interleaving transition
system.  The global state (`PoolState`) carries the shared fields of the C++
object (`_action`, `_threadsWaiting`, `_threadsComplete`, `_threadCallback`,
`_threadParam`, `_THREAD_COUNT`, the live worker set) plus one program counter
per thread, and the successor function `succs` enumerates every atomic step
any thread may take.

Atomicity granularity follows the mutexes of the source:

* Every write of `_action` and of the payload happens under `_actionLock`
  (lines 159-163, 116-118, 186-188); every worker-side observation of
  `_action` is the predicate of a `condition_variable::wait` evaluated while
  holding `_actionLock` (lines 221, 241).  We therefore model each such
  observation or write as one atomic step.  The worker's wake-up / `STOP`
  check (lines 221-225) happens without releasing `_actionLock` in between,
  so it is a single step.
* `_threadsWaiting` and `_threadsComplete` are `std::atomic` counters; each
  increment (lines 215, 237), reset (lines 97-98, 154) and barrier read
  (lines 107-108, 172) is an individual atomic step.  The locks `_waitLock` /
  `_completeLock` additionally order these accesses against the barrier
  predicates, but every access is already a single atomic operation, so
  dropping the two auxiliary locks only *adds* interleavings; all safety
  theorems below are proved over this larger behaviour set.
* The callback invocation (line 229) reads `_threadCallback` and
  `_threadParam` outside any lock.  We model the read-and-invoke as one step
  that records, in a ghost log, exactly the values read at that moment; the
  freshness theorem (claim C4) shows no concurrent write can be in progress.
* Condition-variable sleeping is modelled by the step being enabled only when
  the wait predicate holds (the `wait(lock, pred)` loop form used throughout
  the source); `notify_all` calls are therefore no-ops in the model.

Ghost instrumentation (fields that no step guard reads): `round` counts
publishes of a `RUN` command, `history` records the published payloads in
order, and `log` records one entry per callback invocation (worker id plus
the payload values the worker actually read).  `uint16_t` counters cannot
overflow because they never exceed `_THREAD_COUNT`, so they are modelled as
`Nat`.
-/

/-- The internal state of the pooler: `enum Action { RUN, WAIT, STOP }`
(src/pooler.h lines 88-92).  The spec calls `WAIT` "IDLE". -/
inductive PAction where
  | RUN
  | WAIT
  | STOP
deriving DecidableEq, Repr

/-- A round payload as passed to `Pooler::run`: the `func_t` callback (an
`std::function`, which may be null — modelled as `Option` over an abstract
identifier) and the `void*` parameter (modelled as an abstract numeric
address, `nullptr = 0`). -/
structure Payload where
  callback : Option Nat
  param : Nat
deriving DecidableEq, Repr

/-- Program counter of one worker thread executing `Pooler::threadAction`
(src/pooler.h lines 205-244). -/
inductive WState where
  /-- Top of the `while(true)` loop: about to increment `_threadsWaiting`
  and signal `_waitCv` (lines 211-217). -/
  | atTop
  /-- Parked in `_actionCv.wait(lock, [&]{return _action != WAIT;})`
  (line 221). -/
  | parked
  /-- Woke up with `_action == RUN`, released `_actionLock`; about to invoke
  `_threadCallback(threadID, _threadParam)` (line 229). -/
  | running
  /-- Callback returned; about to increment `_threadsComplete` and signal
  `_completeCv` (lines 233-239). -/
  | completing
  /-- Waiting in `_actionCv.wait(lock, [&]{return _action == WAIT;})`
  (line 241). -/
  | waitingIdle
  /-- Broke out of the loop after observing `_action == STOP` (lines
  223-225); the thread function returns. -/
  | terminated
  /-- Invoked a null `std::function` at line 229: `std::bad_function_call`
  escapes the thread function. -/
  | faulted
deriving DecidableEq, Repr

/-- One call the coordinator will make on the pool. -/
inductive CoordOp where
  | runOp (p : Payload)
  | stopOp
deriving DecidableEq, Repr

/-- Program counter of the coordinator thread (the caller of `run`/`stop`). -/
inductive CState where
  /-- Between calls; the next element of the script starts the next call. -/
  | idle
  /-- Inside `run`: blocked in `waitForThreadsToFinish` (lines 104-110,
  called at line 148) until `_threadsWaiting == _THREAD_COUNT`. -/
  | readyBarrier (p : Payload)
  /-- Inside `run`: about to execute `_threadsWaiting = 0` (line 154). -/
  | resetWaiting (p : Payload)
  /-- Inside `run`: about to write the payload and `_action = RUN` under
  `_actionLock`, then `_actionCv.notify_all()` (lines 159-166). -/
  | publish (p : Payload)
  /-- Inside `run`: blocked in `_completeCv.wait` until
  `_threadsComplete == _THREAD_COUNT` (line 172). -/
  | completeBarrier (p : Payload)
  /-- Inside `run`: about to execute `tellThreadsToIdle` (line 176), i.e.
  `resetThreadLoop` under `_actionLock` plus `notify_all` (lines 114-120). -/
  | idleReset (p : Payload)
  /-- Inside `stop`: blocked in `waitForThreadsToFinish` (line 182). -/
  | stopReadyBarrier
  /-- Inside `stop`: about to set `_action = STOP` under `_actionLock` and
  notify (lines 186-189). -/
  | publishStop
  /-- Inside `stop`: joining every worker thread (lines 192-194), then
  clearing `_threads` (line 196). -/
  | joining
deriving DecidableEq, Repr

/-- A ghost log entry: worker `wid` invoked callback `cb` with parameter
`prm` during publish number `round`. -/
structure Entry where
  round : Nat
  wid : Nat
  cb : Nat
  prm : Nat
deriving DecidableEq, Repr

/-- Global state of the model: the shared fields of the `Pooler` object, per
thread program counters, the coordinator's remaining script, and ghost
instrumentation (`round`, `history`, `log`). -/
structure PoolState where
  /-- `_action` (line 92). -/
  action : PAction
  /-- `_threadsWaiting` (line 79). -/
  threadsWaiting : Nat
  /-- `_threadsComplete` (line 78). -/
  threadsComplete : Nat
  /-- `_threadCallback` (line 123); a default constructed `std::function`
  is null, hence initially `none`. -/
  threadCallback : Option Nat
  /-- `_threadParam` (line 125); initially indeterminate, modelled as 0 —
  no worker reads it before the first publish (proved below). -/
  threadParam : Nat
  /-- `_THREAD_COUNT` (line 75), fixed at construction. -/
  threadCount : Nat
  /-- Program counters of the live worker threads (`_threads`, line 74);
  index `i` is the worker with `threadID = i`.  `stop` clears the vector
  after joining (line 196). -/
  workers : List WState
  /-- Program counter of the coordinator. -/
  coord : CState
  /-- Calls the coordinator has not made yet. -/
  script : List CoordOp
  /-- Ghost: number of `RUN` publishes so far. -/
  round : Nat
  /-- Ghost: payloads published so far, in order. -/
  history : List Payload
  /-- Ghost: callback invocations, in real-time order. -/
  log : List Entry
deriving DecidableEq, Repr

/-- Atomic steps of worker `i` (`Pooler::threadAction`, lines 205-244).
Returns the list of possible successor states (empty if the worker is
blocked, absent, or has terminated). -/
def wstep (s : PoolState) (i : Nat) : List PoolState :=
  match s.workers[i]? with
  | none => []
  | some w =>
    match w with
    | .atTop =>
        -- lines 211-217: `_threadsWaiting++` under `_actionLock`/`_waitLock`,
        -- `_waitCv.notify_all()`, then enter the wait at line 221.
        [{ s with threadsWaiting := s.threadsWaiting + 1,
                  workers := s.workers.set i .parked }]
    | .parked =>
        -- line 221 wait predicate `_action != WAIT`, then lines 223-226,
        -- all under `_actionLock`.
        match s.action with
        | .WAIT => []
        | .STOP => [{ s with workers := s.workers.set i .terminated }]
        | .RUN => [{ s with workers := s.workers.set i .running }]
    | .running =>
        -- line 229: read `_threadCallback`/`_threadParam` and invoke.
        match s.threadCallback with
        | none => [{ s with workers := s.workers.set i .faulted }]
        | some c =>
            [{ s with workers := s.workers.set i .completing,
                      log := s.log ++ [⟨s.round, i, c, s.threadParam⟩] }]
    | .completing =>
        -- lines 233-239: `_threadsComplete++`, `_completeCv.notify_all()`.
        [{ s with threadsComplete := s.threadsComplete + 1,
                  workers := s.workers.set i .waitingIdle }]
    | .waitingIdle =>
        -- line 241 wait predicate `_action == WAIT`, then loop back.
        match s.action with
        | .WAIT => [{ s with workers := s.workers.set i .atTop }]
        | _ => []
    | .terminated => []
    | .faulted => []

/-- Atomic steps of the coordinator (`Pooler::run`, lines 146-177, and
`Pooler::stop`, lines 181-197). -/
def cstep (s : PoolState) : List PoolState :=
  match s.coord with
  | .idle =>
      match s.script with
      | [] => []
      | .runOp p :: rest => [{ s with coord := .readyBarrier p, script := rest }]
      | .stopOp :: rest => [{ s with coord := .stopReadyBarrier, script := rest }]
  | .readyBarrier p =>
      -- lines 107-108: proceed only when `_threadsWaiting == _THREAD_COUNT`.
      if s.threadsWaiting = s.threadCount then [{ s with coord := .resetWaiting p }]
      else []
  | .resetWaiting p =>
      -- line 154.
      [{ s with threadsWaiting := 0, coord := .publish p }]
  | .publish p =>
      -- lines 159-166: payload and `_action = RUN` under `_actionLock`.
      [{ s with threadCallback := p.callback, threadParam := p.param,
                action := .RUN, round := s.round + 1,
                history := s.history ++ [p], coord := .completeBarrier p }]
  | .completeBarrier p =>
      -- line 172: proceed only when `_threadsComplete == _THREAD_COUNT`.
      if s.threadsComplete = s.threadCount then [{ s with coord := .idleReset p }]
      else []
  | .idleReset _ =>
      -- lines 114-120: `resetThreadLoop` under `_actionLock`, `notify_all`;
      -- `run` then returns.
      [{ s with threadsWaiting := 0, threadsComplete := 0, action := .WAIT,
                coord := .idle }]
  | .stopReadyBarrier =>
      if s.threadsWaiting = s.threadCount then [{ s with coord := .publishStop }]
      else []
  | .publishStop =>
      -- lines 186-189.
      [{ s with action := .STOP, coord := .joining }]
  | .joining =>
      -- lines 192-196: `join` returns once every thread function has
      -- terminated; then `_threads.clear()`.
      if s.workers.all (· == .terminated) then
        [{ s with coord := .idle, workers := [] }]
      else []

/-- All atomic steps any thread may take from `s`. -/
def succs (s : PoolState) : List PoolState :=
  cstep s ++ (List.range s.workers.length).flatMap (fun i => wstep s i)

/-- One interleaving step. -/
def Step (s t : PoolState) : Prop := t ∈ succs s

/-- Reachability in the transition system. -/
def Reach (s t : PoolState) : Prop := Relation.ReflTransGen Step s t

/-- State right after `Pooler::Pooler(threadCount)` (lines 131-138):
`resetThreadLoop` has run and every spawned worker is at the top of its
loop; `script` lists the calls the coordinator will make. -/
def initState (n : Nat) (script : List CoordOp) : PoolState :=
  { action := .WAIT
    threadsWaiting := 0
    threadsComplete := 0
    threadCallback := none
    threadParam := 0
    threadCount := n
    workers := List.replicate n .atTop
    coord := .idle
    script := script
    round := 0
    history := []
    log := [] }

/-- Number of log entries recording an invocation by worker `i` during
round `r`. -/
def execCount (log : List Entry) (r i : Nat) : Nat :=
  log.countP (fun e => e.round == r && e.wid == i)

/-- Scripts matching the supported usage pattern: a `stop` call is never
followed by further calls (the spec makes calling the pool after shutdown a
caller error). -/
def validScript : List CoordOp → Bool
  | [] => true
  | .stopOp :: rest => rest.isEmpty
  | .runOp _ :: rest => validScript rest

example : validScript [.runOp ⟨some 1, 2⟩, .stopOp] = true := by decide
example : validScript [.stopOp, .runOp ⟨some 1, 2⟩] = false := by decide

/-! ## List helper lemmas -/

theorem count_set_add {α : Type} [DecidableEq α] {l : List α} {i : Nat} {x : α}
    (y a : α) (h : l[i]? = some x) :
    (l.set i y).count a + (if x = a then 1 else 0)
      = l.count a + (if y = a then 1 else 0) := by
  induction l generalizing i with
  | nil => simp at h
  | cons b t ih =>
    cases i with
    | zero =>
      simp only [List.getElem?_cons_zero, Option.some.injEq] at h
      subst h
      simp only [List.set_cons_zero, List.count_cons, beq_iff_eq]
      split <;> split <;> omega
    | succ j =>
      simp only [List.getElem?_cons_succ] at h
      have := ih h
      simp only [List.set_cons_succ, List.count_cons, beq_iff_eq]
      split <;> omega

theorem all_of_count_eq_length {α : Type} [DecidableEq α] {l : List α} {a : α}
    (h : l.count a = l.length) : ∀ b ∈ l, b = a :=
  fun b hb => ((List.count_eq_length.mp h) b hb).symm

theorem count_eq_zero_of_all {α : Type} [DecidableEq α] {l : List α} {a x : α}
    (h : ∀ b ∈ l, b = a) (hxa : x ≠ a) : l.count x = 0 :=
  List.count_eq_zero.mpr (fun hx => hxa (h x hx))

theorem count_pos_of_get {α : Type} [DecidableEq α] {l : List α} {i : Nat} {x : α}
    (h : l[i]? = some x) : 0 < l.count x :=
  List.count_pos_iff.mpr (List.getElem?_mem h)

theorem get_set_self {α : Type} {l : List α} {i : Nat} {x : α} (y : α)
    (h : l[i]? = some x) : (l.set i y)[i]? = some y := by
  rw [List.getElem?_set_self', h]; rfl

theorem lt_length_of_get {α : Type} {l : List α} {i : Nat} {x : α}
    (h : l[i]? = some x) : i < l.length := by
  by_contra hn
  rw [List.getElem?_eq_none (by omega)] at h
  exact Option.noConfusion h

/-! ## `execCount` lemmas -/

theorem execCount_append (l1 l2 : List Entry) (r i : Nat) :
    execCount (l1 ++ l2) r i = execCount l1 r i + execCount l2 r i :=
  List.countP_append ..

theorem execCount_single (e : Entry) (r i : Nat) :
    execCount [e] r i = if e.round = r ∧ e.wid = i then 1 else 0 := by
  simp only [execCount, List.countP_cons, List.countP_nil, Bool.and_eq_true, beq_iff_eq,
    Nat.zero_add, decide_eq_true_eq]

theorem execCount_zero_of_le {log : List Entry} {R r : Nat} (i : Nat)
    (h : ∀ e ∈ log, e.round ≤ R) (hr : R < r) : execCount log r i = 0 := by
  apply List.countP_eq_zero.mpr
  intro e he
  simp only [Bool.and_eq_true, beq_iff_eq, not_and]
  intro h1
  have := h e he
  omega

/-! ## The inductive invariant -/

/-- Whether a worker in state `w` has already logged its execution of the
current round. -/
def runDone (w : WState) : Nat :=
  match w with
  | .completing => 1
  | .waitingIdle => 1
  | _ => 0

/-- Well-formedness of one log entry with respect to the current state:
entries belong to an already-published round, carry a live worker id, and
record exactly the payload published for that round. -/
def EntryOk (s : PoolState) (e : Entry) : Prop :=
  1 ≤ e.round ∧ e.round ≤ s.round ∧ e.wid < s.threadCount ∧
    ∃ p, s.history[e.round - 1]? = some p ∧ p.callback = some e.cb ∧ p.param = e.prm

/-- Every round published before the current one has been executed exactly
once by every worker id (complete rounds). -/
def CurDone (s : PoolState) : Prop :=
  ∀ i, i < s.threadCount → 1 ≤ s.round → execCount s.log s.round i = 1

/-- Phase facts while the coordinator is outside any call or inside a ready
barrier, provided the pool has not been shut down: the pool is idle and the
counters reflect exactly the workers that have re-parked. -/
def GatherPhase (s : PoolState) : Prop :=
  s.workers.length = s.threadCount ∧ s.action = .WAIT ∧
    (∀ w ∈ s.workers, w = .waitingIdle ∨ w = .atTop ∨ w = .parked) ∧
    s.threadsWaiting = s.workers.count .parked ∧ s.threadsComplete = 0 ∧ CurDone s

/-- Phase facts once `stop` has joined the workers and cleared `_threads`:
the counters are stale (`_threadsWaiting` keeps its final value
`_THREAD_COUNT`, nothing ever resets it). -/
def PostStopAt (s : PoolState) (wg : Nat) : Prop :=
  s.workers = [] ∧ s.action = .STOP ∧ s.threadsWaiting = wg ∧
    s.threadsComplete = 0 ∧ CurDone s

/-- Phase facts between a passed ready barrier and the publish: every worker
is parked and frozen (they wait for `_action != WAIT`). -/
def AllParkedWait (s : PoolState) (wg : Nat) : Prop :=
  s.workers.length = s.threadCount ∧ s.action = .WAIT ∧
    (∀ w ∈ s.workers, w = .parked) ∧ s.threadsWaiting = wg ∧
    s.threadsComplete = 0 ∧ CurDone s

/-- Phase facts while a round is in flight (coordinator blocked at the
completion barrier): the payload matches the published round, and
`_threadsComplete` counts exactly the workers that are done. -/
def RunPhase (s : PoolState) (p : Payload) : Prop :=
  s.workers.length = s.threadCount ∧ s.action = .RUN ∧
    s.threadCallback = p.callback ∧ s.threadParam = p.param ∧
    1 ≤ s.round ∧ s.history[s.round - 1]? = some p ∧
    (∀ w ∈ s.workers,
      w = .parked ∨ w = .running ∨ w = .completing ∨ w = .waitingIdle ∨ w = .faulted) ∧
    s.threadsWaiting = 0 ∧ s.threadsComplete = s.workers.count .waitingIdle ∧
    (∀ i w, s.workers[i]? = some w → execCount s.log s.round i = runDone w) ∧
    (p.callback = none →
      s.workers.count .completing = 0 ∧ s.workers.count .waitingIdle = 0) ∧
    (p.callback ≠ none → s.workers.count .faulted = 0)

/-- Phase facts for a round published after shutdown (a caller error): there
are no workers, so nothing will ever be executed or completed. -/
def PostRunPhase (s : PoolState) (p : Payload) : Prop :=
  s.workers = [] ∧ s.action = .RUN ∧
    s.threadCallback = p.callback ∧ s.threadParam = p.param ∧
    1 ≤ s.round ∧ s.history[s.round - 1]? = some p ∧
    s.threadsWaiting = 0 ∧ s.threadsComplete = 0 ∧
    (∀ i, execCount s.log s.round i = 0)

/-- Phase facts when the completion barrier has been passed: every worker has
executed the round's callback exactly once and is waiting for idle. -/
def ResetPhase (s : PoolState) (p : Payload) : Prop :=
  s.workers.length = s.threadCount ∧ s.action = .RUN ∧
    s.threadCallback = p.callback ∧ s.threadParam = p.param ∧
    1 ≤ s.round ∧ s.history[s.round - 1]? = some p ∧
    (∀ w ∈ s.workers, w = .waitingIdle) ∧
    s.threadsWaiting = 0 ∧ s.threadsComplete = s.threadCount ∧ CurDone s

/-- Phase facts while `stop` is joining: workers only transition
`parked → terminated` and never touch counters or the log. -/
def JoinPhase (s : PoolState) : Prop :=
  s.workers.length = s.threadCount ∧ s.action = .STOP ∧
    (∀ w ∈ s.workers, w = .parked ∨ w = .terminated) ∧
    s.threadsWaiting = s.threadCount ∧ s.threadsComplete = 0 ∧ CurDone s

/-- The phase part of the global invariant, by coordinator position. -/
def Phase (s : PoolState) : Prop :=
  match s.coord with
  | .idle => GatherPhase s ∨ PostStopAt s s.threadCount
  | .readyBarrier _ => GatherPhase s ∨ PostStopAt s s.threadCount
  | .stopReadyBarrier => GatherPhase s ∨ PostStopAt s s.threadCount
  | .resetWaiting _ => AllParkedWait s s.threadCount ∨ PostStopAt s s.threadCount
  | .publish _ => AllParkedWait s 0 ∨ PostStopAt s 0
  | .completeBarrier p => RunPhase s p ∨ PostRunPhase s p
  | .idleReset p => ResetPhase s p
  | .publishStop => AllParkedWait s s.threadCount ∨ PostStopAt s s.threadCount
  | .joining => JoinPhase s ∨ PostStopAt s s.threadCount

/-- The global inductive invariant of the pool. -/
structure PoolInv (s : PoolState) : Prop where
  roundHist : s.round = s.history.length
  logElems : ∀ e ∈ s.log, EntryOk s e
  logSorted : s.log.Pairwise (fun a b => a.round ≤ b.round)
  logUnique : ∀ r i, execCount s.log r i ≤ 1
  pastDone : ∀ r, 1 ≤ r → r < s.round → ∀ i, i < s.threadCount → execCount s.log r i = 1
  phase : Phase s

theorem inv_init (n : Nat) (script : List CoordOp) : PoolInv (initState n script) := by
  refine ⟨rfl, ?_, ?_, ?_, ?_, ?_⟩
  · intro e he; simp [initState] at he
  · simp [initState]
  · intro r i; simp [initState, execCount]
  · intro r h1 h2; simp [initState] at h2
  · refine Or.inl ⟨by simp [initState], rfl, ?_, ?_, rfl, ?_⟩
    · intro w hw
      have := List.eq_of_mem_replicate hw
      exact Or.inr (Or.inl this)
    · have : (List.replicate n WState.atTop).count WState.parked = 0 :=
        count_eq_zero_of_all (fun b hb => List.eq_of_mem_replicate hb) (by simp)
      simp [initState, this]
    · intro i _ h; simp [initState] at h

theorem get_of_lt {α : Type} {l : List α} {i : Nat} (h : i < l.length) :
    ∃ x, l[i]? = some x ∧ x ∈ l :=
  ⟨l[i], List.getElem?_eq_getElem h, List.getElem_mem h⟩

/-- Preservation of the invariant under any coordinator step. -/
theorem inv_cstep {s t : PoolState} (inv : PoolInv s) (ht : t ∈ cstep s) : PoolInv t := by
  have hphase := inv.phase
  cases hc : s.coord with
  | idle =>
    simp only [Phase, hc] at hphase
    simp only [cstep, hc] at ht
    cases hs : s.script with
    | nil => rw [hs] at ht; simp at ht
    | cons op rest =>
      rw [hs] at ht
      cases op with
      | runOp p =>
        simp at ht; subst ht
        exact ⟨inv.roundHist, inv.logElems, inv.logSorted, inv.logUnique, inv.pastDone,
          by exact hphase⟩
      | stopOp =>
        simp at ht; subst ht
        exact ⟨inv.roundHist, inv.logElems, inv.logSorted, inv.logUnique, inv.pastDone,
          by exact hphase⟩
  | readyBarrier p =>
    simp only [Phase, hc] at hphase
    simp only [cstep, hc] at ht
    split at ht
    case isTrue hwg =>
      simp at ht; subst ht
      refine ⟨inv.roundHist, inv.logElems, inv.logSorted, inv.logUnique, inv.pastDone, ?_⟩
      obtain ⟨hlen, hact, hall, hwgc, hcp, hcd⟩ | hP := hphase
      · left
        have hallp := all_of_count_eq_length
          (show s.workers.count .parked = s.workers.length by omega)
        exact ⟨hlen, hact, hallp, hwg, hcp, hcd⟩
      · right; exact hP
    case isFalse => simp at ht
  | resetWaiting p =>
    simp only [Phase, hc] at hphase
    simp only [cstep, hc] at ht
    simp at ht; subst ht
    refine ⟨inv.roundHist, inv.logElems, inv.logSorted, inv.logUnique, inv.pastDone, ?_⟩
    obtain ⟨hlen, hact, hall, hwgc, hcp, hcd⟩ | ⟨hw0, hact, hwgc, hcp, hcd⟩ := hphase
    · exact Or.inl ⟨hlen, hact, hall, rfl, hcp, hcd⟩
    · exact Or.inr ⟨hw0, hact, rfl, hcp, hcd⟩
  | publish p =>
    simp only [Phase, hc] at hphase
    simp only [cstep, hc] at ht
    simp at ht; subst ht
    have hlogle : ∀ e ∈ s.log, e.round ≤ s.round := fun e he => (inv.logElems e he).2.1
    have hhist : (s.history ++ [p])[s.round + 1 - 1]? = some p := by
      simp only [Nat.add_sub_cancel]
      rw [inv.roundHist]
      exact List.getElem?_concat_length ..
    have hzero : ∀ i, execCount s.log (s.round + 1) i = 0 :=
      fun i => execCount_zero_of_le i hlogle (by omega)
    refine ⟨?_, ?_, inv.logSorted, inv.logUnique, ?_, ?_⟩
    · show s.round + 1 = (s.history ++ [p]).length
      simp [inv.roundHist]
    · intro e he
      obtain ⟨h1, h2, h3, q, hq, hqc, hqp⟩ := inv.logElems e he
      refine ⟨h1, show e.round ≤ s.round + 1 by omega, h3, q, ?_, hqc, hqp⟩
      show (s.history ++ [p])[e.round - 1]? = some q
      have : e.round - 1 < s.history.length := by rw [← inv.roundHist]; omega
      rw [List.getElem?_append_left this]
      exact hq
    · intro r h1 h2 i hi
      have h2s : r < s.round + 1 := h2
      have his : i < s.threadCount := hi
      rcases Nat.lt_or_ge r s.round with hr | hr
      · exact inv.pastDone r h1 hr i his
      · have hr2 : r = s.round := by omega
        subst hr2
        obtain ⟨_, _, _, _, _, hcd⟩ | ⟨_, _, _, _, hcd⟩ := hphase
        · exact hcd i his h1
        · exact hcd i his h1
    · obtain ⟨hlen, hact, hall, hwgc, hcp, hcd⟩ | ⟨hw0, hact, hwgc, hcp, hcd⟩ := hphase
      · left
        refine ⟨hlen, rfl, rfl, rfl, show 1 ≤ s.round + 1 by omega, hhist, ?_, hwgc, ?_, ?_,
          ?_, ?_⟩
        · intro w hw; exact Or.inl (hall w hw)
        · rw [count_eq_zero_of_all hall (by simp), hcp]
        · intro i w hw
          rw [hall w (List.getElem?_mem hw)]
          simpa [runDone] using hzero i
        · intro _
          exact ⟨count_eq_zero_of_all hall (by simp), count_eq_zero_of_all hall (by simp)⟩
        · intro _
          exact count_eq_zero_of_all hall (by simp)
      · right
        exact ⟨hw0, rfl, rfl, rfl, show 1 ≤ s.round + 1 by omega, hhist, hwgc, hcp, hzero⟩
  | completeBarrier p =>
    simp only [Phase, hc] at hphase
    simp only [cstep, hc] at ht
    split at ht
    case isTrue hguard =>
      simp at ht; subst ht
      refine ⟨inv.roundHist, inv.logElems, inv.logSorted, inv.logUnique, inv.pastDone, ?_⟩
      obtain ⟨hlen, hact, hcb, hpp, hrd, hhist, hall, hwg, hcp, hcur, hnone, hsome⟩ |
        ⟨hw0, hact, hcb, hpp, hrd, hhist, hwg, hcp, hzero⟩ := hphase
      · have hallw := all_of_count_eq_length
          (show s.workers.count .waitingIdle = s.workers.length by omega)
        have hcd : CurDone s := by
          intro i hi _
          have hil : i < s.workers.length := by omega
          obtain ⟨x, hx, hxm⟩ := get_of_lt hil
          have := hcur i x hx
          rw [hallw x hxm] at this
          simpa [runDone] using this
        exact ⟨hlen, hact, hcb, hpp, hrd, hhist, hallw, hwg, hguard, hcd⟩
      · refine ⟨show s.workers.length = s.threadCount by rw [hw0]; simp; omega, hact, hcb,
          hpp, hrd, hhist, ?_, hwg, hguard, ?_⟩
        · rw [hw0]; simp
        · intro i hi _
          have his : i < s.threadCount := hi
          have hN0 : s.threadCount = 0 := by omega
          rw [hN0] at his
          exact absurd his (Nat.not_lt_zero i)
    case isFalse => simp at ht
  | idleReset p =>
    simp only [Phase, hc] at hphase
    simp only [cstep, hc] at ht
    simp at ht; subst ht
    refine ⟨inv.roundHist, inv.logElems, inv.logSorted, inv.logUnique, inv.pastDone, ?_⟩
    obtain ⟨hlen, hact, hcb, hpp, hrd, hhist, hallw, hwg, hcp, hcd⟩ := hphase
    left
    refine ⟨hlen, rfl, ?_, ?_, rfl, hcd⟩
    · intro w hw; exact Or.inl (hallw w hw)
    · rw [count_eq_zero_of_all hallw (by simp)]
  | stopReadyBarrier =>
    simp only [Phase, hc] at hphase
    simp only [cstep, hc] at ht
    split at ht
    case isTrue hwg =>
      simp at ht; subst ht
      refine ⟨inv.roundHist, inv.logElems, inv.logSorted, inv.logUnique, inv.pastDone, ?_⟩
      obtain ⟨hlen, hact, hall, hwgc, hcp, hcd⟩ | hP := hphase
      · left
        have hallp := all_of_count_eq_length
          (show s.workers.count .parked = s.workers.length by omega)
        exact ⟨hlen, hact, hallp, hwg, hcp, hcd⟩
      · right; exact hP
    case isFalse => simp at ht
  | publishStop =>
    simp only [Phase, hc] at hphase
    simp only [cstep, hc] at ht
    simp at ht; subst ht
    refine ⟨inv.roundHist, inv.logElems, inv.logSorted, inv.logUnique, inv.pastDone, ?_⟩
    obtain ⟨hlen, hact, hall, hwgc, hcp, hcd⟩ | ⟨hw0, hact, hwgc, hcp, hcd⟩ := hphase
    · left
      refine ⟨hlen, rfl, ?_, hwgc, hcp, hcd⟩
      intro w hw; exact Or.inl (hall w hw)
    · right; exact ⟨hw0, rfl, hwgc, hcp, hcd⟩
  | joining =>
    simp only [Phase, hc] at hphase
    simp only [cstep, hc] at ht
    split at ht
    case isTrue hterm =>
      simp at ht; subst ht
      refine ⟨inv.roundHist, inv.logElems, inv.logSorted, inv.logUnique, inv.pastDone, ?_⟩
      obtain ⟨hlen, hact, hall, hwgc, hcp, hcd⟩ | ⟨hw0, hact, hwgc, hcp, hcd⟩ := hphase
      · exact Or.inr ⟨rfl, hact, hwgc, hcp, hcd⟩
      · exact Or.inr ⟨rfl, hact, hwgc, hcp, hcd⟩
    case isFalse => simp at ht

/-- Preservation of the invariant under any worker step. -/
theorem inv_wstep {s t : PoolState} {i : Nat} (inv : PoolInv s) (ht : t ∈ wstep s i) :
    PoolInv t := by
  have hphase := inv.phase
  unfold wstep at ht
  cases hw : s.workers[i]? with
  | none => rw [hw] at ht; simp at ht
  | some w =>
    rw [hw] at ht
    have hmem : w ∈ s.workers := List.getElem?_mem hw
    have hlen : i < s.workers.length := lt_length_of_get hw
    cases w with
    | terminated => simp at ht
    | faulted => simp at ht
    | atTop =>
      simp at ht; subst ht
      refine ⟨inv.roundHist, inv.logElems, inv.logSorted, inv.logUnique, inv.pastDone, ?_⟩
      cases hc : s.coord with
      | idle =>
        simp only [Phase, hc] at hphase ⊢
        obtain ⟨hl, hact, hall, hwgc, hcp, hcd⟩ | hP := hphase
        · left
          refine ⟨by rw [List.length_set]; exact hl, hact, ?_, ?_, hcp, hcd⟩
          · intro x hx
            rcases List.mem_or_eq_of_mem_set hx with hx' | hx'
            · exact hall x hx'
            · subst hx'; exact Or.inr (Or.inr rfl)
          · have hcount := count_set_add (l := s.workers) .parked .parked hw
            simp at hcount
            show s.threadsWaiting + 1 = (s.workers.set i .parked).count .parked
            omega
        · exact absurd (hP.1 ▸ hmem) (List.not_mem_nil _)
      | readyBarrier p =>
        simp only [Phase, hc] at hphase ⊢
        obtain ⟨hl, hact, hall, hwgc, hcp, hcd⟩ | hP := hphase
        · left
          refine ⟨by rw [List.length_set]; exact hl, hact, ?_, ?_, hcp, hcd⟩
          · intro x hx
            rcases List.mem_or_eq_of_mem_set hx with hx' | hx'
            · exact hall x hx'
            · subst hx'; exact Or.inr (Or.inr rfl)
          · have hcount := count_set_add (l := s.workers) .parked .parked hw
            simp at hcount
            show s.threadsWaiting + 1 = (s.workers.set i .parked).count .parked
            omega
        · exact absurd (hP.1 ▸ hmem) (List.not_mem_nil _)
      | stopReadyBarrier =>
        simp only [Phase, hc] at hphase ⊢
        obtain ⟨hl, hact, hall, hwgc, hcp, hcd⟩ | hP := hphase
        · left
          refine ⟨by rw [List.length_set]; exact hl, hact, ?_, ?_, hcp, hcd⟩
          · intro x hx
            rcases List.mem_or_eq_of_mem_set hx with hx' | hx'
            · exact hall x hx'
            · subst hx'; exact Or.inr (Or.inr rfl)
          · have hcount := count_set_add (l := s.workers) .parked .parked hw
            simp at hcount
            show s.threadsWaiting + 1 = (s.workers.set i .parked).count .parked
            omega
        · exact absurd (hP.1 ▸ hmem) (List.not_mem_nil _)
      | resetWaiting p =>
        simp only [Phase, hc] at hphase
        obtain ⟨_, _, hall, _⟩ | hP := hphase
        · have := hall _ hmem; simp at this
        · exact absurd (hP.1 ▸ hmem) (List.not_mem_nil _)
      | publish p =>
        simp only [Phase, hc] at hphase
        obtain ⟨_, _, hall, _⟩ | hP := hphase
        · have := hall _ hmem; simp at this
        · exact absurd (hP.1 ▸ hmem) (List.not_mem_nil _)
      | publishStop =>
        simp only [Phase, hc] at hphase
        obtain ⟨_, _, hall, _⟩ | hP := hphase
        · have := hall _ hmem; simp at this
        · exact absurd (hP.1 ▸ hmem) (List.not_mem_nil _)
      | completeBarrier p =>
        simp only [Phase, hc] at hphase
        obtain ⟨_, _, _, _, _, _, hall, _⟩ | hP := hphase
        · have := hall _ hmem; simp at this
        · exact absurd (hP.1 ▸ hmem) (List.not_mem_nil _)
      | idleReset p =>
        simp only [Phase, hc] at hphase
        obtain ⟨_, _, _, _, _, _, hallw, _⟩ := hphase
        have := hallw _ hmem; simp at this
      | joining =>
        simp only [Phase, hc] at hphase
        obtain ⟨_, _, hall, _⟩ | hP := hphase
        · have := hall _ hmem; simp at this
        · exact absurd (hP.1 ▸ hmem) (List.not_mem_nil _)
    | parked =>
      cases ha : s.action with
      | WAIT => rw [ha] at ht; simp at ht
      | RUN =>
        rw [ha] at ht; simp at ht; subst ht
        refine ⟨inv.roundHist, inv.logElems, inv.logSorted, inv.logUnique, inv.pastDone, ?_⟩
        cases hc : s.coord with
        | completeBarrier p =>
          simp only [Phase, hc] at hphase ⊢
          obtain ⟨hl, hact, hcb, hpp, hrd, hhist, hall, hwg, hcp, hcur, hnone, hsome⟩ |
            hP := hphase
          · left
            refine ⟨by rw [List.length_set]; exact hl, rfl, hcb, hpp, hrd, hhist, ?_, hwg,
              ?_, ?_, ?_, ?_⟩
            · intro x hx
              rcases List.mem_or_eq_of_mem_set hx with hx' | hx'
              · exact hall x hx'
              · subst hx'; exact Or.inr (Or.inl rfl)
            · have hcount := count_set_add (l := s.workers) .running .waitingIdle hw
              simp at hcount
              show s.threadsComplete = (s.workers.set i .running).count .waitingIdle
              omega
            · intro j x hx
              by_cases hij : i = j
              · subst hij
                rw [get_set_self _ hw] at hx
                simp at hx
                subst hx
                simpa [runDone] using hcur i _ hw
              · rw [List.getElem?_set_ne hij] at hx
                exact hcur j x hx
            · intro h0
              obtain ⟨hcm, hwi⟩ := hnone h0
              have hc1 := count_set_add (l := s.workers) .running .completing hw
              have hc2 := count_set_add (l := s.workers) .running .waitingIdle hw
              simp at hc1 hc2
              show (s.workers.set i .running).count .completing = 0 ∧
                (s.workers.set i .running).count .waitingIdle = 0
              constructor <;> omega
            · intro h0
              have hf := hsome h0
              have hc1 := count_set_add (l := s.workers) .running .faulted hw
              simp at hc1
              show (s.workers.set i .running).count .faulted = 0
              omega
          · exact absurd (hP.1 ▸ hmem) (List.not_mem_nil _)
        | idleReset p =>
          simp only [Phase, hc] at hphase
          obtain ⟨_, _, _, _, _, _, hallw, _⟩ := hphase
          have := hallw _ hmem; simp at this
        | idle =>
          simp only [Phase, hc] at hphase
          obtain ⟨_, hact, _⟩ | ⟨_, hact, _⟩ := hphase <;> rw [ha] at hact <;> simp at hact
        | readyBarrier p =>
          simp only [Phase, hc] at hphase
          obtain ⟨_, hact, _⟩ | ⟨_, hact, _⟩ := hphase <;> rw [ha] at hact <;> simp at hact
        | stopReadyBarrier =>
          simp only [Phase, hc] at hphase
          obtain ⟨_, hact, _⟩ | ⟨_, hact, _⟩ := hphase <;> rw [ha] at hact <;> simp at hact
        | resetWaiting p =>
          simp only [Phase, hc] at hphase
          obtain ⟨_, hact, _⟩ | ⟨_, hact, _⟩ := hphase <;> rw [ha] at hact <;> simp at hact
        | publish p =>
          simp only [Phase, hc] at hphase
          obtain ⟨_, hact, _⟩ | ⟨_, hact, _⟩ := hphase <;> rw [ha] at hact <;> simp at hact
        | publishStop =>
          simp only [Phase, hc] at hphase
          obtain ⟨_, hact, _⟩ | ⟨_, hact, _⟩ := hphase <;> rw [ha] at hact <;> simp at hact
        | joining =>
          simp only [Phase, hc] at hphase
          obtain ⟨_, hact, _⟩ | ⟨_, hact, _⟩ := hphase <;> rw [ha] at hact <;> simp at hact
      | STOP =>
        rw [ha] at ht; simp at ht; subst ht
        refine ⟨inv.roundHist, inv.logElems, inv.logSorted, inv.logUnique, inv.pastDone, ?_⟩
        cases hc : s.coord with
        | joining =>
          simp only [Phase, hc] at hphase ⊢
          obtain ⟨hl, hact, hall, hwg, hcp, hcd⟩ | hP := hphase
          · left
            refine ⟨by rw [List.length_set]; exact hl, rfl, ?_, hwg, hcp, hcd⟩
            intro x hx
            rcases List.mem_or_eq_of_mem_set hx with hx' | hx'
            · exact hall x hx'
            · subst hx'; exact Or.inr rfl
          · exact absurd (hP.1 ▸ hmem) (List.not_mem_nil _)
        | idle =>
          simp only [Phase, hc] at hphase
          obtain ⟨_, hact, _⟩ | ⟨hP, _⟩ := hphase
          · rw [ha] at hact; simp at hact
          · exact absurd (hP ▸ hmem) (List.not_mem_nil _)
        | readyBarrier p =>
          simp only [Phase, hc] at hphase
          obtain ⟨_, hact, _⟩ | ⟨hP, _⟩ := hphase
          · rw [ha] at hact; simp at hact
          · exact absurd (hP ▸ hmem) (List.not_mem_nil _)
        | stopReadyBarrier =>
          simp only [Phase, hc] at hphase
          obtain ⟨_, hact, _⟩ | ⟨hP, _⟩ := hphase
          · rw [ha] at hact; simp at hact
          · exact absurd (hP ▸ hmem) (List.not_mem_nil _)
        | resetWaiting p =>
          simp only [Phase, hc] at hphase
          obtain ⟨_, hact, _⟩ | ⟨hP, _⟩ := hphase
          · rw [ha] at hact; simp at hact
          · exact absurd (hP ▸ hmem) (List.not_mem_nil _)
        | publish p =>
          simp only [Phase, hc] at hphase
          obtain ⟨_, hact, _⟩ | ⟨hP, _⟩ := hphase
          · rw [ha] at hact; simp at hact
          · exact absurd (hP ▸ hmem) (List.not_mem_nil _)
        | publishStop =>
          simp only [Phase, hc] at hphase
          obtain ⟨_, hact, _⟩ | ⟨hP, _⟩ := hphase
          · rw [ha] at hact; simp at hact
          · exact absurd (hP ▸ hmem) (List.not_mem_nil _)
        | completeBarrier p =>
          simp only [Phase, hc] at hphase
          obtain ⟨_, hact, _⟩ | ⟨hP, _⟩ := hphase
          · rw [ha] at hact; simp at hact
          · exact absurd (hP ▸ hmem) (List.not_mem_nil _)
        | idleReset p =>
          simp only [Phase, hc] at hphase
          obtain ⟨_, hact, _⟩ := hphase
          rw [ha] at hact; simp at hact
    | completing =>
      simp at ht; subst ht
      refine ⟨inv.roundHist, inv.logElems, inv.logSorted, inv.logUnique, inv.pastDone, ?_⟩
      cases hc : s.coord with
      | completeBarrier p =>
        simp only [Phase, hc] at hphase ⊢
        obtain ⟨hl, hact, hcb, hpp, hrd, hhist, hall, hwg, hcp, hcur, hnone, hsome⟩ |
          hP := hphase
        · left
          refine ⟨by rw [List.length_set]; exact hl, hact, hcb, hpp, hrd, hhist, ?_, hwg,
            ?_, ?_, ?_, ?_⟩
          · intro x hx
            rcases List.mem_or_eq_of_mem_set hx with hx' | hx'
            · exact hall x hx'
            · subst hx'; exact Or.inr (Or.inr (Or.inr (Or.inl rfl)))
          · have hcount := count_set_add (l := s.workers) .waitingIdle .waitingIdle hw
            simp at hcount
            show s.threadsComplete + 1 = (s.workers.set i .waitingIdle).count .waitingIdle
            omega
          · intro j x hx
            by_cases hij : i = j
            · subst hij
              rw [get_set_self _ hw] at hx
              simp at hx
              subst hx
              simpa [runDone] using hcur i _ hw
            · rw [List.getElem?_set_ne hij] at hx
              exact hcur j x hx
          · intro h0
            exact absurd (hnone h0).1 (by have := count_pos_of_get hw; omega)
          · intro h0
            have hf := hsome h0
            have hc1 := count_set_add (l := s.workers) .waitingIdle .faulted hw
            simp at hc1
            show (s.workers.set i .waitingIdle).count .faulted = 0
            omega
        · exact absurd (hP.1 ▸ hmem) (List.not_mem_nil _)
      | idle =>
        simp only [Phase, hc] at hphase
        obtain ⟨_, _, hall, _⟩ | hP := hphase
        · have := hall _ hmem; simp at this
        · exact absurd (hP.1 ▸ hmem) (List.not_mem_nil _)
      | readyBarrier p =>
        simp only [Phase, hc] at hphase
        obtain ⟨_, _, hall, _⟩ | hP := hphase
        · have := hall _ hmem; simp at this
        · exact absurd (hP.1 ▸ hmem) (List.not_mem_nil _)
      | stopReadyBarrier =>
        simp only [Phase, hc] at hphase
        obtain ⟨_, _, hall, _⟩ | hP := hphase
        · have := hall _ hmem; simp at this
        · exact absurd (hP.1 ▸ hmem) (List.not_mem_nil _)
      | resetWaiting p =>
        simp only [Phase, hc] at hphase
        obtain ⟨_, _, hall, _⟩ | hP := hphase
        · have := hall _ hmem; simp at this
        · exact absurd (hP.1 ▸ hmem) (List.not_mem_nil _)
      | publish p =>
        simp only [Phase, hc] at hphase
        obtain ⟨_, _, hall, _⟩ | hP := hphase
        · have := hall _ hmem; simp at this
        · exact absurd (hP.1 ▸ hmem) (List.not_mem_nil _)
      | publishStop =>
        simp only [Phase, hc] at hphase
        obtain ⟨_, _, hall, _⟩ | hP := hphase
        · have := hall _ hmem; simp at this
        · exact absurd (hP.1 ▸ hmem) (List.not_mem_nil _)
      | idleReset p =>
        simp only [Phase, hc] at hphase
        obtain ⟨_, _, _, _, _, _, hallw, _⟩ := hphase
        have := hallw _ hmem; simp at this
      | joining =>
        simp only [Phase, hc] at hphase
        obtain ⟨_, _, hall, _⟩ | hP := hphase
        · have := hall _ hmem; simp at this
        · exact absurd (hP.1 ▸ hmem) (List.not_mem_nil _)
    | waitingIdle =>
      cases ha : s.action with
      | RUN => rw [ha] at ht; simp at ht
      | STOP => rw [ha] at ht; simp at ht
      | WAIT =>
        rw [ha] at ht; simp at ht; subst ht
        refine ⟨inv.roundHist, inv.logElems, inv.logSorted, inv.logUnique, inv.pastDone, ?_⟩
        cases hc : s.coord with
        | idle =>
          simp only [Phase, hc] at hphase ⊢
          obtain ⟨hl, hact, hall, hwgc, hcp, hcd⟩ | hP := hphase
          · left
            refine ⟨by rw [List.length_set]; exact hl, rfl, ?_, ?_, hcp, hcd⟩
            · intro x hx
              rcases List.mem_or_eq_of_mem_set hx with hx' | hx'
              · exact hall x hx'
              · subst hx'; exact Or.inr (Or.inl rfl)
            · have hcount := count_set_add (l := s.workers) .atTop .parked hw
              simp at hcount
              show s.threadsWaiting = (s.workers.set i .atTop).count .parked
              omega
          · exact absurd (hP.1 ▸ hmem) (List.not_mem_nil _)
        | readyBarrier p =>
          simp only [Phase, hc] at hphase ⊢
          obtain ⟨hl, hact, hall, hwgc, hcp, hcd⟩ | hP := hphase
          · left
            refine ⟨by rw [List.length_set]; exact hl, rfl, ?_, ?_, hcp, hcd⟩
            · intro x hx
              rcases List.mem_or_eq_of_mem_set hx with hx' | hx'
              · exact hall x hx'
              · subst hx'; exact Or.inr (Or.inl rfl)
            · have hcount := count_set_add (l := s.workers) .atTop .parked hw
              simp at hcount
              show s.threadsWaiting = (s.workers.set i .atTop).count .parked
              omega
          · exact absurd (hP.1 ▸ hmem) (List.not_mem_nil _)
        | stopReadyBarrier =>
          simp only [Phase, hc] at hphase ⊢
          obtain ⟨hl, hact, hall, hwgc, hcp, hcd⟩ | hP := hphase
          · left
            refine ⟨by rw [List.length_set]; exact hl, rfl, ?_, ?_, hcp, hcd⟩
            · intro x hx
              rcases List.mem_or_eq_of_mem_set hx with hx' | hx'
              · exact hall x hx'
              · subst hx'; exact Or.inr (Or.inl rfl)
            · have hcount := count_set_add (l := s.workers) .atTop .parked hw
              simp at hcount
              show s.threadsWaiting = (s.workers.set i .atTop).count .parked
              omega
          · exact absurd (hP.1 ▸ hmem) (List.not_mem_nil _)
        | resetWaiting p =>
          simp only [Phase, hc] at hphase
          obtain ⟨_, _, hall, _⟩ | hP := hphase
          · have := hall _ hmem; simp at this
          · exact absurd (hP.1 ▸ hmem) (List.not_mem_nil _)
        | publish p =>
          simp only [Phase, hc] at hphase
          obtain ⟨_, _, hall, _⟩ | hP := hphase
          · have := hall _ hmem; simp at this
          · exact absurd (hP.1 ▸ hmem) (List.not_mem_nil _)
        | publishStop =>
          simp only [Phase, hc] at hphase
          obtain ⟨_, _, hall, _⟩ | hP := hphase
          · have := hall _ hmem; simp at this
          · exact absurd (hP.1 ▸ hmem) (List.not_mem_nil _)
        | completeBarrier p =>
          simp only [Phase, hc] at hphase
          obtain ⟨_, hact, _⟩ | ⟨_, hact, _⟩ := hphase <;> rw [ha] at hact <;> simp at hact
        | idleReset p =>
          simp only [Phase, hc] at hphase
          obtain ⟨_, hact, _⟩ := hphase
          rw [ha] at hact; simp at hact
        | joining =>
          simp only [Phase, hc] at hphase
          obtain ⟨_, hact, _⟩ | ⟨_, hact, _⟩ := hphase <;> rw [ha] at hact <;> simp at hact
    | running =>
      cases hcb0 : s.threadCallback with
      | none =>
        rw [hcb0] at ht; simp at ht; subst ht
        cases hc : s.coord with
        | completeBarrier p =>
          refine ⟨inv.roundHist, inv.logElems, inv.logSorted, inv.logUnique, inv.pastDone, ?_⟩
          simp only [Phase, hc] at hphase ⊢
          obtain ⟨hl, hact, hcb, hpp, hrd, hhist, hall, hwg, hcp, hcur, hnone, hsome⟩ |
            hP := hphase
          · left
            have hpc : p.callback = none := by rw [← hcb, hcb0]
            refine ⟨by rw [List.length_set]; exact hl, hact, ?_, hpp, hrd, hhist, ?_, hwg,
              ?_, ?_, ?_, ?_⟩
            · exact hpc.symm
            · intro x hx
              rcases List.mem_or_eq_of_mem_set hx with hx' | hx'
              · exact hall x hx'
              · subst hx'; exact Or.inr (Or.inr (Or.inr (Or.inr rfl)))
            · have hcount := count_set_add (l := s.workers) .faulted .waitingIdle hw
              simp at hcount
              show s.threadsComplete = (s.workers.set i .faulted).count .waitingIdle
              omega
            · intro j x hx
              by_cases hij : i = j
              · subst hij
                rw [get_set_self _ hw] at hx
                simp at hx
                subst hx
                simpa [runDone] using hcur i _ hw
              · rw [List.getElem?_set_ne hij] at hx
                exact hcur j x hx
            · intro h0
              obtain ⟨hcm, hwi⟩ := hnone h0
              have hc1 := count_set_add (l := s.workers) .faulted .completing hw
              have hc2 := count_set_add (l := s.workers) .faulted .waitingIdle hw
              simp at hc1 hc2
              show (s.workers.set i .faulted).count .completing = 0 ∧
                (s.workers.set i .faulted).count .waitingIdle = 0
              constructor <;> omega
            · intro h0
              exact absurd hpc h0
          · exact absurd (hP.1 ▸ hmem) (List.not_mem_nil _)
        | idle =>
          simp only [Phase, hc] at hphase
          obtain ⟨_, _, hall, _⟩ | hP := hphase
          · have := hall _ hmem; simp at this
          · exact absurd (hP.1 ▸ hmem) (List.not_mem_nil _)
        | readyBarrier p =>
          simp only [Phase, hc] at hphase
          obtain ⟨_, _, hall, _⟩ | hP := hphase
          · have := hall _ hmem; simp at this
          · exact absurd (hP.1 ▸ hmem) (List.not_mem_nil _)
        | stopReadyBarrier =>
          simp only [Phase, hc] at hphase
          obtain ⟨_, _, hall, _⟩ | hP := hphase
          · have := hall _ hmem; simp at this
          · exact absurd (hP.1 ▸ hmem) (List.not_mem_nil _)
        | resetWaiting p =>
          simp only [Phase, hc] at hphase
          obtain ⟨_, _, hall, _⟩ | hP := hphase
          · have := hall _ hmem; simp at this
          · exact absurd (hP.1 ▸ hmem) (List.not_mem_nil _)
        | publish p =>
          simp only [Phase, hc] at hphase
          obtain ⟨_, _, hall, _⟩ | hP := hphase
          · have := hall _ hmem; simp at this
          · exact absurd (hP.1 ▸ hmem) (List.not_mem_nil _)
        | publishStop =>
          simp only [Phase, hc] at hphase
          obtain ⟨_, _, hall, _⟩ | hP := hphase
          · have := hall _ hmem; simp at this
          · exact absurd (hP.1 ▸ hmem) (List.not_mem_nil _)
        | idleReset p =>
          simp only [Phase, hc] at hphase
          obtain ⟨_, _, _, _, _, _, hallw, _⟩ := hphase
          have := hallw _ hmem; simp at this
        | joining =>
          simp only [Phase, hc] at hphase
          obtain ⟨_, _, hall, _⟩ | hP := hphase
          · have := hall _ hmem; simp at this
          · exact absurd (hP.1 ▸ hmem) (List.not_mem_nil _)
      | some c =>
        rw [hcb0] at ht; simp at ht; subst ht
        cases hc : s.coord with
        | completeBarrier p =>
          simp only [Phase, hc] at hphase
          obtain ⟨hl, hact, hcb, hpp, hrd, hhist, hall, hwg, hcp, hcur, hnone, hsome⟩ |
            hP := hphase
          · have hpc : p.callback = some c := by rw [← hcb, hcb0]
            have hcuri : execCount s.log s.round i = 0 := by
              simpa [runDone] using hcur i _ hw
            refine ⟨inv.roundHist, ?_, ?_, ?_, ?_, ?_⟩
            · intro e he
              rcases List.mem_append.mp he with he' | he'
              · exact inv.logElems e he'
              · rw [List.mem_singleton] at he'
                subst he'
                refine ⟨hrd, Nat.le_refl _, by rw [← hl]; exact hlen, p, hhist, ?_, ?_⟩
                · rw [hpc]
                · exact hpp.symm
            · rw [List.pairwise_append]
              refine ⟨inv.logSorted, by simp, ?_⟩
              intro a ha b hb
              rw [List.mem_singleton] at hb
              subst hb
              exact (inv.logElems a ha).2.1
            · intro r j
              rw [execCount_append, execCount_single]
              split
              case isTrue hcnd =>
                have hr1 : s.round = r := hcnd.1
                have hr2 : i = j := hcnd.2
                subst hr1; subst hr2
                rw [hcuri]
              case isFalse hcnd =>
                have := inv.logUnique r j
                omega
            · intro r h1 h2 j hj
              have h2s : r < s.round := h2
              have hjs : j < s.threadCount := hj
              rw [execCount_append, execCount_single]
              split
              case isTrue hcnd =>
                have hr1 : s.round = r := hcnd.1
                omega
              case isFalse hcnd =>
                have := inv.pastDone r h1 h2s j hjs
                omega
            · simp only [Phase, hc]
              left
              refine ⟨by rw [List.length_set]; exact hl, hact, ?_, hpp, hrd, hhist, ?_, hwg,
                ?_, ?_, ?_, ?_⟩
              · exact hpc.symm
              · intro x hx
                rcases List.mem_or_eq_of_mem_set hx with hx' | hx'
                · exact hall x hx'
                · subst hx'; exact Or.inr (Or.inr (Or.inl rfl))
              · have hcount := count_set_add (l := s.workers) .completing .waitingIdle hw
                simp at hcount
                show s.threadsComplete = (s.workers.set i .completing).count .waitingIdle
                omega
              · intro j x hx
                by_cases hij : i = j
                · subst hij
                  rw [get_set_self _ hw] at hx
                  simp at hx
                  subst hx
                  show execCount (s.log ++ [⟨s.round, i, c, s.threadParam⟩]) s.round i
                    = runDone .completing
                  rw [execCount_append, execCount_single, if_pos ⟨rfl, rfl⟩, hcuri]
                  rfl
                · rw [List.getElem?_set_ne hij] at hx
                  have hold := hcur j x hx
                  show execCount (s.log ++ [⟨s.round, i, c, s.threadParam⟩]) s.round j
                    = runDone x
                  rw [execCount_append, execCount_single,
                    if_neg (fun hcon => hij hcon.2), hold]
                  omega
              · intro h0
                rw [hpc] at h0
                exact Option.noConfusion h0
              · intro h0
                have hf := hsome h0
                have hc1 := count_set_add (l := s.workers) .completing .faulted hw
                simp at hc1
                show (s.workers.set i .completing).count .faulted = 0
                omega
          · exact absurd (hP.1 ▸ hmem) (List.not_mem_nil _)
        | idle =>
          simp only [Phase, hc] at hphase
          obtain ⟨_, _, hall, _⟩ | hP := hphase
          · have := hall _ hmem; simp at this
          · exact absurd (hP.1 ▸ hmem) (List.not_mem_nil _)
        | readyBarrier p =>
          simp only [Phase, hc] at hphase
          obtain ⟨_, _, hall, _⟩ | hP := hphase
          · have := hall _ hmem; simp at this
          · exact absurd (hP.1 ▸ hmem) (List.not_mem_nil _)
        | stopReadyBarrier =>
          simp only [Phase, hc] at hphase
          obtain ⟨_, _, hall, _⟩ | hP := hphase
          · have := hall _ hmem; simp at this
          · exact absurd (hP.1 ▸ hmem) (List.not_mem_nil _)
        | resetWaiting p =>
          simp only [Phase, hc] at hphase
          obtain ⟨_, _, hall, _⟩ | hP := hphase
          · have := hall _ hmem; simp at this
          · exact absurd (hP.1 ▸ hmem) (List.not_mem_nil _)
        | publish p =>
          simp only [Phase, hc] at hphase
          obtain ⟨_, _, hall, _⟩ | hP := hphase
          · have := hall _ hmem; simp at this
          · exact absurd (hP.1 ▸ hmem) (List.not_mem_nil _)
        | publishStop =>
          simp only [Phase, hc] at hphase
          obtain ⟨_, _, hall, _⟩ | hP := hphase
          · have := hall _ hmem; simp at this
          · exact absurd (hP.1 ▸ hmem) (List.not_mem_nil _)
        | idleReset p =>
          simp only [Phase, hc] at hphase
          obtain ⟨_, _, _, _, _, _, hallw, _⟩ := hphase
          have := hallw _ hmem; simp at this
        | joining =>
          simp only [Phase, hc] at hphase
          obtain ⟨_, _, hall, _⟩ | hP := hphase
          · have := hall _ hmem; simp at this
          · exact absurd (hP.1 ▸ hmem) (List.not_mem_nil _)

/-- Preservation of the invariant under any interleaving step. -/
theorem inv_step {s t : PoolState} (inv : PoolInv s) (hst : Step s t) : PoolInv t := by
  have h' : t ∈ cstep s ++ (List.range s.workers.length).flatMap (fun i => wstep s i) := hst
  rcases List.mem_append.mp h' with h | h
  · exact inv_cstep inv h
  · rw [List.mem_flatMap] at h
    obtain ⟨i, _, hi⟩ := h
    exact inv_wstep inv hi

/-- The invariant holds in every reachable state. -/
theorem inv_reach {s t : PoolState} (inv : PoolInv s) (h : Reach s t) : PoolInv t := by
  induction h with
  | refl => exact inv
  | tail h1 h2 ih => exact inv_step ih h2

/-- The invariant holds in every state reachable from a fresh pool. -/
theorem reach_inv {n : Nat} {sc : List CoordOp} {t : PoolState}
    (h : Reach (initState n sc) t) : PoolInv t :=
  inv_reach (inv_init n sc) h

/-- Worker steps only touch the counters, the worker array and the log. -/
theorem wstep_frame {s t : PoolState} {i : Nat} (h : t ∈ wstep s i) :
    t.coord = s.coord ∧ t.script = s.script ∧ t.action = s.action ∧
    t.threadCount = s.threadCount ∧ t.history = s.history ∧ t.round = s.round ∧
    t.threadCallback = s.threadCallback ∧ t.threadParam = s.threadParam := by
  unfold wstep at h
  repeat' split at h
  all_goals simp_all

/-- Coordinator steps never touch `_THREAD_COUNT` or the invocation log. -/
theorem cstep_frame {s t : PoolState} (h : t ∈ cstep s) :
    t.threadCount = s.threadCount ∧ t.log = s.log := by
  unfold cstep at h
  repeat' split at h
  all_goals simp_all

/-- `_THREAD_COUNT` is fixed at construction. -/
theorem reach_threadCount {n : Nat} {sc : List CoordOp} {t : PoolState}
    (h : Reach (initState n sc) t) : t.threadCount = n := by
  induction h with
  | refl => rfl
  | tail h1 h2 ih =>
    rename_i b c
    have h2' : c ∈ cstep b ++ (List.range b.workers.length).flatMap (fun i => wstep b i) := h2
    rcases List.mem_append.mp h2' with hm | hm
    · rw [(cstep_frame hm).1]; exact ih
    · rw [List.mem_flatMap] at hm
      obtain ⟨i, _, hi⟩ := hm
      rw [(wstep_frame hi).2.2.2.1]; exact ih

/-- Payloads of the dispatch calls in a script, in order. -/
def runsOf (l : List CoordOp) : List Payload :=
  l.filterMap (fun op => match op with | .runOp p => some p | .stopOp => none)

/-- The payload of a dispatch call the coordinator has started but not yet
published, followed by the run payloads still in the script. -/
def pendingRuns (s : PoolState) : List Payload :=
  (match s.coord with
   | .readyBarrier p => [p]
   | .resetWaiting p => [p]
   | .publish p => [p]
   | _ => []) ++ runsOf s.script

/-- Each step moves payloads from the pending queue into `history` without
reordering: their concatenation is constant. -/
theorem step_history {s t : PoolState} (h : Step s t) :
    t.history ++ pendingRuns t = s.history ++ pendingRuns s := by
  have h' : t ∈ cstep s ++ (List.range s.workers.length).flatMap (fun i => wstep s i) := h
  rcases List.mem_append.mp h' with hm | hm
  · unfold cstep at hm
    repeat' split at hm
    all_goals simp_all [pendingRuns, runsOf]
  · rw [List.mem_flatMap] at hm
    obtain ⟨i, _, hi⟩ := hm
    obtain ⟨hcoord, hscript, _, _, hhist, _⟩ := wstep_frame hi
    unfold pendingRuns
    rw [hhist, hcoord, hscript]

/-- In any reachable state, the published history plus what is still pending
equals the run payloads of the original script. -/
theorem reach_history {n : Nat} {sc : List CoordOp} {t : PoolState}
    (h : Reach (initState n sc) t) : t.history ++ pendingRuns t = runsOf sc := by
  induction h with
  | refl => simp [initState, pendingRuns]
  | tail h1 h2 ih => rw [step_history h2]; exact ih

/-- Coordinator positions inside a `stop` call. -/
def StopCoord (c : CState) : Prop :=
  c = .stopReadyBarrier ∨ c = .publishStop ∨ c = .joining

/-- Auxiliary invariant for supported usage (no call after `shutdown`): once
a `stop` has started, the script is exhausted, and once `_action == STOP`
the coordinator can only be finishing that `stop` or done. -/
structure ValidInv (s : PoolState) : Prop where
  scriptOk : validScript s.script = true
  stopTail : StopCoord s.coord → s.script = []
  stopDone : s.action = .STOP → s.script = [] ∧ (s.coord = .joining ∨ s.coord = .idle)

theorem vinv_init (n : Nat) {sc : List CoordOp} (hv : validScript sc = true) :
    ValidInv (initState n sc) := by
  refine ⟨hv, ?_, ?_⟩
  · intro h
    rcases h with h | h | h <;> simp [initState] at h
  · intro h
    simp [initState] at h

theorem vinv_step {s t : PoolState} (hv : ValidInv s) (hst : Step s t) : ValidInv t := by
  have h' : t ∈ cstep s ++ (List.range s.workers.length).flatMap (fun i => wstep s i) := hst
  rcases List.mem_append.mp h' with hm | hm
  · obtain ⟨hsc, hstail, hsdone⟩ := hv
    cases hc : s.coord with
    | idle =>
      simp only [cstep, hc] at hm
      cases hs : s.script with
      | nil => rw [hs] at hm; simp at hm
      | cons op rest =>
        rw [hs] at hm
        rw [hs] at hsc
        cases op with
        | runOp p =>
          simp at hm; subst hm
          refine ⟨by simpa [validScript] using hsc, ?_, ?_⟩
          · intro h
            rcases h with h | h | h <;> simp at h
          · intro h
            have := hsdone h
            rw [hs] at this
            simp at this
        | stopOp =>
          simp at hm; subst hm
          have hrest : rest = [] := by
            simpa [validScript, List.isEmpty_iff] using hsc
          subst hrest
          exact ⟨rfl, fun _ => rfl, fun h => by
            have := hsdone h
            rw [hs] at this
            simp at this⟩
    | readyBarrier p =>
      simp only [cstep, hc] at hm
      split at hm
      · simp at hm; subst hm
        refine ⟨hsc, ?_, ?_⟩
        · intro h; rcases h with h | h | h <;> simp at h
        · intro h
          rcases (hsdone h).2 with h2 | h2 <;> rw [hc] at h2 <;> simp at h2
      · simp at hm
    | resetWaiting p =>
      simp only [cstep, hc] at hm
      simp at hm; subst hm
      refine ⟨hsc, ?_, ?_⟩
      · intro h; rcases h with h | h | h <;> simp at h
      · intro h
        rcases (hsdone h).2 with h2 | h2 <;> rw [hc] at h2 <;> simp at h2
    | publish p =>
      simp only [cstep, hc] at hm
      simp at hm; subst hm
      refine ⟨hsc, ?_, ?_⟩
      · intro h; rcases h with h | h | h <;> simp at h
      · intro h; simp at h
    | completeBarrier p =>
      simp only [cstep, hc] at hm
      split at hm
      · simp at hm; subst hm
        refine ⟨hsc, ?_, ?_⟩
        · intro h; rcases h with h | h | h <;> simp at h
        · intro h
          rcases (hsdone h).2 with h2 | h2 <;> rw [hc] at h2 <;> simp at h2
      · simp at hm
    | idleReset p =>
      simp only [cstep, hc] at hm
      simp at hm; subst hm
      refine ⟨hsc, ?_, ?_⟩
      · intro h; rcases h with h | h | h <;> simp at h
      · intro h; simp at h
    | stopReadyBarrier =>
      simp only [cstep, hc] at hm
      split at hm
      · simp at hm; subst hm
        have hnil := hstail (Or.inl hc)
        exact ⟨hsc, fun _ => hnil, fun h => by
          rcases (hsdone h).2 with h2 | h2 <;> rw [hc] at h2 <;> simp at h2⟩
      · simp at hm
    | publishStop =>
      simp only [cstep, hc] at hm
      simp at hm; subst hm
      have hnil := hstail (Or.inr (Or.inl hc))
      exact ⟨hsc, fun _ => hnil, fun _ => ⟨hnil, Or.inl rfl⟩⟩
    | joining =>
      simp only [cstep, hc] at hm
      split at hm
      · simp at hm; subst hm
        have hnil := hstail (Or.inr (Or.inr hc))
        exact ⟨hsc, fun h => by rcases h with h | h | h <;> simp at h,
          fun _ => ⟨hnil, Or.inr rfl⟩⟩
      · simp at hm
  · rw [List.mem_flatMap] at hm
    obtain ⟨i, _, hi⟩ := hm
    obtain ⟨hcoord, hscript, hact, _⟩ := wstep_frame hi
    obtain ⟨hsc, hstail, hsdone⟩ := hv
    refine ⟨by rw [hscript]; exact hsc, ?_, ?_⟩
    · intro h
      rw [hcoord] at h
      rw [hscript]
      exact hstail h
    · intro h
      rw [hact] at h
      rw [hscript, hcoord]
      exact hsdone h

/-- The usage invariant holds in every state reachable from a fresh pool
driven by a supported script. -/
theorem vinv_reach {n : Nat} {sc : List CoordOp} {t : PoolState}
    (hv : validScript sc = true) (h : Reach (initState n sc) t) : ValidInv t := by
  induction h with
  | refl => exact vinv_init n hv
  | tail h1 h2 ih => exact vinv_step ih h2

/-! ## Counting invocations -/

theorem execCount_cons (e : Entry) (l : List Entry) (r i : Nat) :
    execCount (e :: l) r i
      = execCount l r i + (if e.round = r ∧ e.wid = i then 1 else 0) := by
  simp only [execCount, List.countP_cons, Bool.and_eq_true, beq_iff_eq, decide_eq_true_eq]

/-- The number of round-`r` entries is the sum over worker ids of each
worker's round-`r` invocation count, provided all round-`r` entries carry a
worker id below `N`. -/
theorem countP_round_eq_sum (r N : Nat) :
    ∀ log : List Entry, (∀ e ∈ log, e.round = r → e.wid < N) →
      log.countP (fun e => e.round == r) = ∑ i in Finset.range N, execCount log r i := by
  intro log
  induction log with
  | nil => intro _; simp [execCount]
  | cons e l ih =>
    intro h
    have hl := ih (fun e' he' => h e' (List.mem_cons_of_mem _ he'))
    rw [List.countP_cons]
    have hsum : (∑ i in Finset.range N, execCount (e :: l) r i)
        = (∑ i in Finset.range N, execCount l r i)
          + ∑ i in Finset.range N, (if e.round = r ∧ e.wid = i then 1 else 0) := by
      rw [← Finset.sum_add_distrib]
      exact Finset.sum_congr rfl (fun i _ => execCount_cons e l r i)
    rw [hsum, ← hl]
    by_cases hr : e.round = r
    · have hw : e.wid ∈ Finset.range N :=
        Finset.mem_range.mpr (h e (List.mem_cons_self e l) hr)
      have hcong : ∀ j, (if e.round = r ∧ e.wid = j then (1 : Nat) else 0)
          = if e.wid = j then (1 : Nat) else 0 := by
        intro j
        by_cases hx : e.wid = j
        · simp [hx, hr]
        · simp [hx]
      rw [Finset.sum_congr rfl (fun j _ => hcong j), Finset.sum_ite_eq, if_pos hw]
      simp [hr]
    · have hz : (∑ i in Finset.range N, (if e.round = r ∧ e.wid = i then 1 else 0))
          = (0 : Nat) := by
        apply Finset.sum_eq_zero
        intro i _
        simp [hr]
      rw [hz]
      simp [hr]

/-- The number of entries of worker `i` is the sum over rounds of that
worker's per-round invocation count, provided all entries carry a round in
`[1, M]`. -/
theorem countP_wid_eq_sum (i M : Nat) :
    ∀ log : List Entry, (∀ e ∈ log, 1 ≤ e.round ∧ e.round ≤ M) →
      log.countP (fun e => e.wid == i)
        = ∑ r in Finset.range M, execCount log (r + 1) i := by
  intro log
  induction log with
  | nil => intro _; simp [execCount]
  | cons e l ih =>
    intro h
    have hl := ih (fun e' he' => h e' (List.mem_cons_of_mem _ he'))
    obtain ⟨he1, he2⟩ := h e (List.mem_cons_self e l)
    rw [List.countP_cons]
    have hsum : (∑ r in Finset.range M, execCount (e :: l) (r + 1) i)
        = (∑ r in Finset.range M, execCount l (r + 1) i)
          + ∑ r in Finset.range M, (if e.round = r + 1 ∧ e.wid = i then 1 else 0) := by
      rw [← Finset.sum_add_distrib]
      exact Finset.sum_congr rfl (fun r _ => execCount_cons e l (r + 1) i)
    rw [hsum, ← hl]
    by_cases hwid : e.wid = i
    · have hrm : e.round - 1 ∈ Finset.range M := Finset.mem_range.mpr (by omega)
      have hcong : ∀ r, (if e.round = r + 1 ∧ e.wid = i then (1 : Nat) else 0)
          = if e.round - 1 = r then (1 : Nat) else 0 := by
        intro r
        by_cases hx : e.round - 1 = r
        · have hr1 : e.round = r + 1 := by omega
          simp [hr1, hwid, hx]
        · have hr1 : ¬ e.round = r + 1 := by omega
          simp [hr1, hx]
      rw [Finset.sum_congr rfl (fun r _ => hcong r), Finset.sum_ite_eq, if_pos hrm]
      simp [hwid]
    · have hz : (∑ r in Finset.range M, (if e.round = r + 1 ∧ e.wid = i then 1 else 0))
          = (0 : Nat) := by
        apply Finset.sum_eq_zero
        intro r _
        simp [hwid]
      rw [hz]
      simp [hwid]

/-! ## Concrete executions -/

instance stepDecidable (s t : PoolState) : Decidable (Step s t) :=
  inferInstanceAs (Decidable (t ∈ succs s))

/-- The payload used in the concrete executions below. -/
def cw0 : Payload := ⟨some 5, 7⟩

/-- A complete one-worker session: one dispatch, then shutdown.  `cs0` …
`cs17` are the successive states of one interleaving. -/
def cs0 : PoolState := initState 1 [.runOp cw0, .stopOp]

def cs1 : PoolState := { cs0 with threadsWaiting := 1, workers := [.parked] }

def cs2 : PoolState := { cs1 with coord := .readyBarrier cw0, script := [.stopOp] }

def cs3 : PoolState := { cs2 with coord := .resetWaiting cw0 }

def cs4 : PoolState := { cs3 with threadsWaiting := 0, coord := .publish cw0 }

def cs5 : PoolState :=
  { cs4 with
    threadCallback := some 5
    threadParam := 7
    action := .RUN
    round := 1
    history := [cw0]
    coord := .completeBarrier cw0 }

def cs6 : PoolState := { cs5 with workers := [.running] }

def cs7 : PoolState := { cs6 with workers := [.completing], log := [⟨1, 0, 5, 7⟩] }

def cs8 : PoolState := { cs7 with threadsComplete := 1, workers := [.waitingIdle] }

def cs9 : PoolState := { cs8 with coord := .idleReset cw0 }

def cs10 : PoolState :=
  { cs9 with
    threadsWaiting := 0
    threadsComplete := 0
    action := .WAIT
    coord := .idle }

def cs11 : PoolState := { cs10 with workers := [.atTop] }

def cs12 : PoolState := { cs11 with threadsWaiting := 1, workers := [.parked] }

def cs13 : PoolState := { cs12 with coord := .stopReadyBarrier, script := [] }

def cs14 : PoolState := { cs13 with coord := .publishStop }

def cs15 : PoolState := { cs14 with action := .STOP, coord := .joining }

def cs16 : PoolState := { cs15 with workers := [.terminated] }

def cs17 : PoolState := { cs16 with coord := .idle, workers := [] }

theorem reach_cs1 : Reach cs0 cs1 := Relation.ReflTransGen.single (by decide)

theorem reach_cs2 : Reach cs0 cs2 := reach_cs1.tail (by decide)

theorem reach_cs3 : Reach cs0 cs3 := reach_cs2.tail (by decide)

theorem reach_cs4 : Reach cs0 cs4 := reach_cs3.tail (by decide)

theorem reach_cs5 : Reach cs0 cs5 := reach_cs4.tail (by decide)

theorem reach_cs6 : Reach cs0 cs6 := reach_cs5.tail (by decide)

theorem reach_cs7 : Reach cs0 cs7 := reach_cs6.tail (by decide)

theorem reach_cs8 : Reach cs0 cs8 := reach_cs7.tail (by decide)

theorem reach_cs9 : Reach cs0 cs9 := reach_cs8.tail (by decide)

theorem reach_cs10 : Reach cs0 cs10 := reach_cs9.tail (by decide)

theorem reach_cs11 : Reach cs0 cs11 := reach_cs10.tail (by decide)

theorem reach_cs12 : Reach cs0 cs12 := reach_cs11.tail (by decide)

theorem reach_cs13 : Reach cs0 cs13 := reach_cs12.tail (by decide)

theorem reach_cs14 : Reach cs0 cs14 := reach_cs13.tail (by decide)

theorem reach_cs15 : Reach cs0 cs15 := reach_cs14.tail (by decide)

theorem reach_cs16 : Reach cs0 cs16 := reach_cs15.tail (by decide)

theorem reach_cs17 : Reach cs0 cs17 := reach_cs16.tail (by decide)

/-- A session that calls `stop` first and then `run`: the unsupported
call-after-shutdown pattern (claim C8). -/
def cr0 : PoolState := initState 1 [.stopOp, .runOp cw0]

def cr1 : PoolState := { cr0 with threadsWaiting := 1, workers := [.parked] }

def cr2 : PoolState := { cr1 with coord := .stopReadyBarrier, script := [.runOp cw0] }

def cr3 : PoolState := { cr2 with coord := .publishStop }

def cr4 : PoolState := { cr3 with action := .STOP, coord := .joining }

def cr5 : PoolState := { cr4 with workers := [.terminated] }

def cr6 : PoolState := { cr5 with coord := .idle, workers := [] }

def cr7 : PoolState := { cr6 with coord := .readyBarrier cw0, script := [] }

def cr8 : PoolState := { cr7 with coord := .resetWaiting cw0 }

def cr9 : PoolState := { cr8 with threadsWaiting := 0, coord := .publish cw0 }

def cr10 : PoolState :=
  { cr9 with
    threadCallback := some 5
    threadParam := 7
    action := .RUN
    round := 1
    history := [cw0]
    coord := .completeBarrier cw0 }

theorem reach_cr10 : Reach cr0 cr10 :=
  ((((((((((Relation.ReflTransGen.single
    (show Step cr0 cr1 by decide)).tail
    (show Step cr1 cr2 by decide)).tail
    (show Step cr2 cr3 by decide)).tail
    (show Step cr3 cr4 by decide)).tail
    (show Step cr4 cr5 by decide)).tail
    (show Step cr5 cr6 by decide)).tail
    (show Step cr6 cr7 by decide)).tail
    (show Step cr7 cr8 by decide)).tail
    (show Step cr8 cr9 by decide)).tail
    (show Step cr9 cr10 by decide))

/-- A session dispatching a null callback (claim C9). -/
def cnp : Payload := ⟨none, 3⟩

def cn0 : PoolState := initState 1 [.runOp cnp]

def cn1 : PoolState := { cn0 with threadsWaiting := 1, workers := [.parked] }

def cn2 : PoolState := { cn1 with coord := .readyBarrier cnp, script := [] }

def cn3 : PoolState := { cn2 with coord := .resetWaiting cnp }

def cn4 : PoolState := { cn3 with threadsWaiting := 0, coord := .publish cnp }

def cn5 : PoolState :=
  { cn4 with
    threadCallback := none
    threadParam := 3
    action := .RUN
    round := 1
    history := [cnp]
    coord := .completeBarrier cnp }

def cn6 : PoolState := { cn5 with workers := [.running] }

def cn7 : PoolState := { cn6 with workers := [.faulted] }

theorem reach_cn5 : Reach cn0 cn5 :=
  ((((Relation.ReflTransGen.single
    (show Step cn0 cn1 by decide)).tail
    (show Step cn1 cn2 by decide)).tail
    (show Step cn2 cn3 by decide)).tail
    (show Step cn3 cn4 by decide)).tail
    (show Step cn4 cn5 by decide)

theorem reach_cn7 : Reach cn0 cn7 :=
  (reach_cn5.tail (show Step cn5 cn6 by decide)).tail
    (show Step cn6 cn7 by decide)

/-! ## The claims -/

/-- **C1**: for every pool and every dispatch, at the point where `run` has
passed the completion barrier and is about to reset to idle and return
(`tellThreadsToIdle`, line 176): no worker is still executing the callback
(all are parked waiting for idle), every worker id in `[0, workerCount)`
has executed the round's callback exactly once, the total number of
invocations of this round (the value of a counter the callback atomically
increments) equals `workerCount`, and every invocation of the round read
exactly the dispatched `(callback, parameter)` pair. -/
theorem run_executes_each_worker_exactly_once {n : Nat} {sc : List CoordOp}
    {s : PoolState} {p : Payload} (h : Reach (initState n sc) s)
    (hcoord : s.coord = .idleReset p) :
    (∀ w ∈ s.workers, w = .waitingIdle) ∧
    (∀ i, i < n → execCount s.log s.round i = 1) ∧
    (s.log.filter (fun e => e.round == s.round)).length = n ∧
    (∀ e ∈ s.log, e.round = s.round → p.callback = some e.cb ∧ p.param = e.prm) := by
  have inv := reach_inv h
  have hN := reach_threadCount h
  have hphase := inv.phase
  simp only [Phase, hcoord] at hphase
  obtain ⟨hl, hact, hcb, hpp, hrd, hhist, hallw, hwg, hcp, hcd⟩ := hphase
  refine ⟨hallw, ?_, ?_, ?_⟩
  · intro i hi
    exact hcd i (by omega) hrd
  · rw [← List.countP_eq_length_filter]
    rw [countP_round_eq_sum s.round s.threadCount s.log
      (fun e he _ => (inv.logElems e he).2.2.1)]
    rw [Finset.sum_congr rfl (fun i hi => hcd i (Finset.mem_range.mp hi) hrd)]
    simp [hN]
  · intro e he hr
    obtain ⟨_, _, _, q, hq, hqc, hqp⟩ := inv.logElems e he
    rw [hr, hhist] at hq
    have hqp2 : q = p := by injection hq with h'; exact h'.symm
    subst hqp2
    exact ⟨hqc, hqp⟩

/-- Witness for C1: in the concrete one-worker session, worker 0 executed
round 1 exactly once when `run` is about to return. -/
theorem run_executes_each_worker_exactly_once_witness :
    execCount cs9.log cs9.round 0 = 1 :=
  (run_executes_each_worker_exactly_once reach_cs9 rfl).2.1 0 (by decide)

/-- **C2**: sequential dispatch rounds never overlap: the invocation log is
ordered by round number (no later-round entry ever precedes an
earlier-round entry), any round strictly below some logged entry's round
was already executed exactly once by every worker id, and when the
coordinator observes a round as complete (it has passed the completion
barrier) no worker is still inside the callback. -/
theorem dispatch_rounds_never_overlap {n : Nat} {sc : List CoordOp} {s : PoolState}
    (h : Reach (initState n sc) s) :
    s.log.Pairwise (fun a b => a.round ≤ b.round) ∧
    (∀ e ∈ s.log, ∀ r, 1 ≤ r → r < e.round → ∀ i, i < n →
      execCount s.log r i = 1) ∧
    (∀ p, s.coord = .idleReset p → ∀ w ∈ s.workers, w = .waitingIdle) := by
  have inv := reach_inv h
  have hN := reach_threadCount h
  refine ⟨inv.logSorted, ?_, ?_⟩
  · intro e he r h1 h2 i hi
    have hr : r < s.round := by
      have := (inv.logElems e he).2.1
      omega
    exact inv.pastDone r h1 hr i (by omega)
  · intro p hp
    have hphase := inv.phase
    simp only [Phase, hp] at hphase
    exact hphase.2.2.2.2.2.2.1

/-- Witness for C2 on the concrete one-worker session. -/
theorem dispatch_rounds_never_overlap_witness :
    cs9.log.Pairwise (fun a b => a.round ≤ b.round) :=
  (dispatch_rounds_never_overlap reach_cs9).1

/-- **C3**: a dispatch publishes its round only after having observed
`waitingCount == workerCount` (with every worker actually parked); it may
pass the completion barrier only once `completeCount == workerCount`; a
ready barrier is always evaluated with `completeCount` already reset to
zero; `waitingCount` is zero for the whole in-flight round; and the reset
step at the end of a dispatch zeroes both counters and returns the state
to idle before the coordinator continues. -/
theorem dispatch_barrier_counter_protocol {n : Nat} {sc : List CoordOp} {s : PoolState}
    (h : Reach (initState n sc) s) :
    (∀ p, s.coord = .resetWaiting p →
      s.threadsWaiting = s.threadCount ∧ ∀ w ∈ s.workers, w = .parked) ∧
    (∀ p, s.coord = .idleReset p → s.threadsComplete = s.threadCount) ∧
    (∀ p, s.coord = .readyBarrier p → s.threadsComplete = 0) ∧
    (∀ p, s.coord = .completeBarrier p → s.threadsWaiting = 0) ∧
    (∀ p t, s.coord = .idleReset p → Step s t →
      t.threadsWaiting = 0 ∧ t.threadsComplete = 0 ∧ t.action = .WAIT) := by
  have inv := reach_inv h
  refine ⟨?_, ?_, ?_, ?_, ?_⟩
  · intro p hp
    have hphase := inv.phase
    simp only [Phase, hp] at hphase
    obtain ⟨_, _, hall, hwg, _⟩ | ⟨hw0, _, hwg, _⟩ := hphase
    · exact ⟨hwg, hall⟩
    · exact ⟨hwg, by rw [hw0]; simp⟩
  · intro p hp
    have hphase := inv.phase
    simp only [Phase, hp] at hphase
    exact hphase.2.2.2.2.2.2.2.2.1
  · intro p hp
    have hphase := inv.phase
    simp only [Phase, hp] at hphase
    obtain ⟨_, _, _, _, hcp, _⟩ | ⟨_, _, _, hcp, _⟩ := hphase
    · exact hcp
    · exact hcp
  · intro p hp
    have hphase := inv.phase
    simp only [Phase, hp] at hphase
    obtain ⟨_, _, _, _, _, _, _, hwg, _⟩ | ⟨_, _, _, _, _, _, hwg, _⟩ := hphase
    · exact hwg
    · exact hwg
  · intro p t hp hstep
    have hphase := inv.phase
    simp only [Phase, hp] at hphase
    obtain ⟨hl, hact, _, _, _, _, hallw, _⟩ := hphase
    have h' : t ∈ cstep s ++ (List.range s.workers.length).flatMap (fun i => wstep s i) :=
      hstep
    rcases List.mem_append.mp h' with hm | hm
    · simp only [cstep, hp] at hm
      simp at hm
      subst hm
      exact ⟨rfl, rfl, rfl⟩
    · exfalso
      rw [List.mem_flatMap] at hm
      obtain ⟨i, hi, hmi⟩ := hm
      rw [List.mem_range] at hi
      obtain ⟨x, hx, hxm⟩ := get_of_lt hi
      unfold wstep at hmi
      rw [hx, hallw x hxm, hact] at hmi
      simp at hmi

/-- Witness for C3: the concrete session observes the full ready barrier
before publishing. -/
theorem dispatch_barrier_counter_protocol_witness :
    cs3.threadsWaiting = cs3.threadCount ∧ ∀ w ∈ cs3.workers, w = .parked :=
  (dispatch_barrier_counter_protocol reach_cs3).1 cw0 rfl

/-- **C4**: payload freshness: whenever some worker has observed
`state == RUN` and is about to invoke the callback, the shared payload
cells contain exactly the published payload of the in-flight round (never
stale or partial); more generally whenever `state == RUN` the payload cells
match the round being dispatched. -/
theorem payload_fresh_when_running {n : Nat} {sc : List CoordOp} {s : PoolState}
    (h : Reach (initState n sc) s) :
    (∀ i : Nat, s.workers[i]? = some WState.running →
      ∃ p, s.coord = .completeBarrier p ∧ s.threadCallback = p.callback ∧
        s.threadParam = p.param ∧ 1 ≤ s.round ∧ s.history[s.round - 1]? = some p) ∧
    (s.action = .RUN →
      ∃ p, (s.coord = .completeBarrier p ∨ s.coord = .idleReset p) ∧
        s.threadCallback = p.callback ∧ s.threadParam = p.param ∧
        s.history[s.round - 1]? = some p) := by
  have inv := reach_inv h
  constructor
  · intro i hwi
    have hphase := inv.phase
    have hmem : WState.running ∈ s.workers := List.getElem?_mem hwi
    cases hc : s.coord with
    | completeBarrier p =>
      simp only [Phase, hc] at hphase
      obtain ⟨_, _, hcb, hpp, hrd, hhist, _⟩ | hP := hphase
      · exact ⟨p, rfl, hcb, hpp, hrd, hhist⟩
      · exact absurd (hP.1 ▸ hmem) (List.not_mem_nil _)
    | idle =>
      simp only [Phase, hc] at hphase
      obtain ⟨_, _, hall, _⟩ | hP := hphase
      · have := hall _ hmem; simp at this
      · exact absurd (hP.1 ▸ hmem) (List.not_mem_nil _)
    | readyBarrier p =>
      simp only [Phase, hc] at hphase
      obtain ⟨_, _, hall, _⟩ | hP := hphase
      · have := hall _ hmem; simp at this
      · exact absurd (hP.1 ▸ hmem) (List.not_mem_nil _)
    | stopReadyBarrier =>
      simp only [Phase, hc] at hphase
      obtain ⟨_, _, hall, _⟩ | hP := hphase
      · have := hall _ hmem; simp at this
      · exact absurd (hP.1 ▸ hmem) (List.not_mem_nil _)
    | resetWaiting p =>
      simp only [Phase, hc] at hphase
      obtain ⟨_, _, hall, _⟩ | hP := hphase
      · have := hall _ hmem; simp at this
      · exact absurd (hP.1 ▸ hmem) (List.not_mem_nil _)
    | publish p =>
      simp only [Phase, hc] at hphase
      obtain ⟨_, _, hall, _⟩ | hP := hphase
      · have := hall _ hmem; simp at this
      · exact absurd (hP.1 ▸ hmem) (List.not_mem_nil _)
    | publishStop =>
      simp only [Phase, hc] at hphase
      obtain ⟨_, _, hall, _⟩ | hP := hphase
      · have := hall _ hmem; simp at this
      · exact absurd (hP.1 ▸ hmem) (List.not_mem_nil _)
    | idleReset p =>
      simp only [Phase, hc] at hphase
      obtain ⟨_, _, _, _, _, _, hallw, _⟩ := hphase
      have := hallw _ hmem; simp at this
    | joining =>
      simp only [Phase, hc] at hphase
      obtain ⟨_, _, hall, _⟩ | hP := hphase
      · have := hall _ hmem; simp at this
      · exact absurd (hP.1 ▸ hmem) (List.not_mem_nil _)
  · intro hrun
    have hphase := inv.phase
    cases hc : s.coord with
    | completeBarrier p =>
      simp only [Phase, hc] at hphase
      obtain ⟨_, _, hcb, hpp, _, hhist, _⟩ | ⟨_, _, hcb, hpp, _, hhist, _⟩ := hphase
      · exact ⟨p, Or.inl rfl, hcb, hpp, hhist⟩
      · exact ⟨p, Or.inl rfl, hcb, hpp, hhist⟩
    | idleReset p =>
      simp only [Phase, hc] at hphase
      obtain ⟨_, _, hcb, hpp, _, hhist, _⟩ := hphase
      exact ⟨p, Or.inr rfl, hcb, hpp, hhist⟩
    | idle =>
      simp only [Phase, hc] at hphase
      obtain ⟨_, hact, _⟩ | ⟨_, hact, _⟩ := hphase <;> rw [hrun] at hact <;> simp at hact
    | readyBarrier p =>
      simp only [Phase, hc] at hphase
      obtain ⟨_, hact, _⟩ | ⟨_, hact, _⟩ := hphase <;> rw [hrun] at hact <;> simp at hact
    | stopReadyBarrier =>
      simp only [Phase, hc] at hphase
      obtain ⟨_, hact, _⟩ | ⟨_, hact, _⟩ := hphase <;> rw [hrun] at hact <;> simp at hact
    | resetWaiting p =>
      simp only [Phase, hc] at hphase
      obtain ⟨_, hact, _⟩ | ⟨_, hact, _⟩ := hphase <;> rw [hrun] at hact <;> simp at hact
    | publish p =>
      simp only [Phase, hc] at hphase
      obtain ⟨_, hact, _⟩ | ⟨_, hact, _⟩ := hphase <;> rw [hrun] at hact <;> simp at hact
    | publishStop =>
      simp only [Phase, hc] at hphase
      obtain ⟨_, hact, _⟩ | ⟨_, hact, _⟩ := hphase <;> rw [hrun] at hact <;> simp at hact
    | joining =>
      simp only [Phase, hc] at hphase
      obtain ⟨_, hact, _⟩ | ⟨_, hact, _⟩ := hphase <;> rw [hrun] at hact <;> simp at hact

/-- Witness for C4: the concrete running worker reads the freshly published
payload. -/
theorem payload_fresh_when_running_witness :
    ∃ p, cs6.coord = .completeBarrier p ∧ cs6.threadCallback = p.callback ∧
      cs6.threadParam = p.param ∧ 1 ≤ cs6.round ∧
      cs6.history[cs6.round - 1]? = some p :=
  (payload_fresh_when_running reach_cs6).1 0 (by decide)

/-- **C5**: under the supported usage (a single coordinator that never
calls the pool again after `stop`), `_action` only ever makes the
transitions `WAIT→RUN` (publish), `RUN→WAIT` (round reset) and `WAIT→STOP`
(shutdown) — the spec's `IDLE` is `WAIT` — and `STOP` is terminal: once the
state is `STOP` no step ever changes it. -/
theorem action_transitions_supported_usage {n : Nat} {sc : List CoordOp}
    {s t : PoolState} (hv : validScript sc = true)
    (h : Reach (initState n sc) s) (hstep : Step s t) :
    (s.action = .STOP → t.action = .STOP) ∧
    (s.action ≠ t.action →
      (s.action = .WAIT ∧ (t.action = .RUN ∨ t.action = .STOP)) ∨
      (s.action = .RUN ∧ t.action = .WAIT)) := by
  have inv := reach_inv h
  have vinv := vinv_reach hv h
  have h' : t ∈ cstep s ++ (List.range s.workers.length).flatMap (fun i => wstep s i) :=
    hstep
  rcases List.mem_append.mp h' with hm | hm
  · have hphase := inv.phase
    cases hc : s.coord with
    | idle =>
      simp only [cstep, hc] at hm
      cases hs : s.script with
      | nil => rw [hs] at hm; simp at hm
      | cons op rest =>
        rw [hs] at hm
        cases op with
        | runOp p =>
          simp at hm; subst hm
          exact ⟨fun ha => ha, fun hne => absurd rfl hne⟩
        | stopOp =>
          simp at hm; subst hm
          exact ⟨fun ha => ha, fun hne => absurd rfl hne⟩
    | readyBarrier p =>
      simp only [cstep, hc] at hm
      split at hm
      · simp at hm; subst hm
        exact ⟨fun ha => ha, fun hne => absurd rfl hne⟩
      · simp at hm
    | resetWaiting p =>
      simp only [cstep, hc] at hm
      simp at hm; subst hm
      exact ⟨fun ha => ha, fun hne => absurd rfl hne⟩
    | publish p =>
      simp only [cstep, hc] at hm
      simp at hm; subst hm
      simp only [Phase, hc] at hphase
      obtain ⟨_, hact, _⟩ | ⟨_, hact, _⟩ := hphase
      · constructor
        · intro ha; rw [ha] at hact; exact absurd hact (by simp)
        · intro _; exact Or.inl ⟨hact, Or.inl rfl⟩
      · exfalso
        rcases (vinv.stopDone hact).2 with h2 | h2 <;> rw [hc] at h2 <;> simp at h2
    | completeBarrier p =>
      simp only [cstep, hc] at hm
      split at hm
      · simp at hm; subst hm
        exact ⟨fun ha => ha, fun hne => absurd rfl hne⟩
      · simp at hm
    | idleReset p =>
      simp only [cstep, hc] at hm
      simp at hm; subst hm
      simp only [Phase, hc] at hphase
      obtain ⟨_, hact, _⟩ := hphase
      constructor
      · intro ha; rw [ha] at hact; exact absurd hact (by simp)
      · intro _; exact Or.inr ⟨hact, rfl⟩
    | stopReadyBarrier =>
      simp only [cstep, hc] at hm
      split at hm
      · simp at hm; subst hm
        exact ⟨fun ha => ha, fun hne => absurd rfl hne⟩
      · simp at hm
    | publishStop =>
      simp only [cstep, hc] at hm
      simp at hm; subst hm
      simp only [Phase, hc] at hphase
      obtain ⟨_, hact, _⟩ | ⟨_, hact, _⟩ := hphase
      · exact ⟨fun _ => rfl, fun _ => Or.inl ⟨hact, Or.inr rfl⟩⟩
      · exfalso
        rcases (vinv.stopDone hact).2 with h2 | h2 <;> rw [hc] at h2 <;> simp at h2
    | joining =>
      simp only [cstep, hc] at hm
      split at hm
      · simp at hm; subst hm
        exact ⟨fun ha => ha, fun hne => absurd rfl hne⟩
      · simp at hm
  · rw [List.mem_flatMap] at hm
    obtain ⟨i, _, hmi⟩ := hm
    obtain ⟨_, _, hact, _⟩ := wstep_frame hmi
    exact ⟨fun ha => by rw [hact]; exact ha, fun hne => absurd hact.symm hne⟩

/-- Witness for C5 at the concrete publish step (`WAIT → RUN`). -/
theorem action_transitions_supported_usage_witness :
    (cs4.action = .STOP → cs5.action = .STOP) ∧
    (cs4.action ≠ cs5.action →
      (cs4.action = .WAIT ∧ (cs5.action = .RUN ∨ cs5.action = .STOP)) ∨
      (cs4.action = .RUN ∧ cs5.action = .WAIT)) :=
  action_transitions_supported_usage (by decide) reach_cs4 (by decide)

/-- **C6**: `stop` waits for the ready barrier exactly like dispatch (when
it is about to broadcast `STOP`, the barrier has been observed and every
worker is parked), then while joining: the state is `STOP`, every live
worker is parked or has terminated without invoking a callback, no step can
extend the invocation log, and the join completes — releasing the worker
set — exactly when every worker has terminated. -/
theorem stop_shutdown_protocol {n : Nat} {sc : List CoordOp} {s : PoolState}
    (h : Reach (initState n sc) s) :
    (s.coord = .publishStop →
      s.threadsWaiting = s.threadCount ∧ ∀ w ∈ s.workers, w = .parked) ∧
    (s.coord = .joining →
      s.action = .STOP ∧ (∀ w ∈ s.workers, w = .parked ∨ w = .terminated) ∧
      (∀ t, Step s t → t.log = s.log) ∧
      ((∀ w ∈ s.workers, w = .terminated) →
        succs s = [{ s with coord := .idle, workers := [] }])) := by
  have inv := reach_inv h
  constructor
  · intro hp
    have hphase := inv.phase
    simp only [Phase, hp] at hphase
    obtain ⟨_, _, hall, hwg, _⟩ | ⟨hw0, _, hwg, _⟩ := hphase
    · exact ⟨hwg, hall⟩
    · exact ⟨hwg, by rw [hw0]; simp⟩
  · intro hp
    have hphase := inv.phase
    simp only [Phase, hp] at hphase
    have hact : s.action = .STOP := by
      obtain ⟨_, hact, _⟩ | ⟨_, hact, _⟩ := hphase
      · exact hact
      · exact hact
    have hall : ∀ w ∈ s.workers, w = .parked ∨ w = .terminated := by
      obtain ⟨_, _, hall, _⟩ | ⟨hw0, _⟩ := hphase
      · exact hall
      · rw [hw0]; simp
    refine ⟨hact, hall, ?_, ?_⟩
    · intro t hstep
      have h' : t ∈ cstep s
          ++ (List.range s.workers.length).flatMap (fun i => wstep s i) := hstep
      rcases List.mem_append.mp h' with hm | hm
      · exact (cstep_frame hm).2
      · rw [List.mem_flatMap] at hm
        obtain ⟨i, hi, hmi⟩ := hm
        rw [List.mem_range] at hi
        obtain ⟨x, hx, hxm⟩ := get_of_lt hi
        unfold wstep at hmi
        rw [hx] at hmi
        rcases hall x hxm with hx' | hx'
        · subst hx'
          rw [hact] at hmi
          simp at hmi
          subst hmi
          rfl
        · subst hx'
          simp at hmi
    · intro hterm
      have hallb : s.workers.all (· == .terminated) = true := by
        rw [List.all_eq_true]
        intro w hw
        simp [hterm w hw]
      have hflat : (List.range s.workers.length).flatMap (fun i => wstep s i) = [] := by
        rw [List.flatMap_eq_nil_iff]
        intro i hi
        rw [List.mem_range] at hi
        obtain ⟨x, hx, hxm⟩ := get_of_lt hi
        unfold wstep
        rw [hx, hterm x hxm]
      unfold succs
      rw [hflat]
      simp only [cstep, hp]
      rw [if_pos hallb]
      simp

/-- Witness for C6 at the concrete joining state. -/
theorem stop_shutdown_protocol_witness :
    cs15.action = .STOP ∧ (∀ w ∈ cs15.workers, w = .parked ∨ w = .terminated) ∧
    (∀ t, Step cs15 t → t.log = cs15.log) ∧
    ((∀ w ∈ cs15.workers, w = .terminated) →
      succs cs15 = [{ cs15 with coord := .idle, workers := [] }]) :=
  (stop_shutdown_protocol reach_cs15).2 rfl

/-- **C7**: sequential dispatches: whenever the coordinator is back at
idle, the published rounds are exactly the payloads of the dispatch calls
made so far in order (`history` plus the run payloads still in the script
equals the script's run payloads), the round counter equals the number of
published rounds, each worker id has been invoked exactly once per round —
hence `round` times in total — and every logged invocation carries exactly
the `(callback, parameter)` pair of its round. -/
theorem sequential_dispatch_rounds_match_script {n : Nat} {sc : List CoordOp}
    {s : PoolState} (h : Reach (initState n sc) s) (hidle : s.coord = .idle) :
    s.history ++ runsOf s.script = runsOf sc ∧
    s.round = s.history.length ∧
    (∀ i, i < n → (s.log.filter (fun e => e.wid == i)).length = s.round) ∧
    (∀ e ∈ s.log, ∃ p, s.history[e.round - 1]? = some p ∧
      p.callback = some e.cb ∧ p.param = e.prm ∧ 1 ≤ e.round ∧ e.round ≤ s.round) := by
  have inv := reach_inv h
  have hN := reach_threadCount h
  have hphase := inv.phase
  refine ⟨?_, inv.roundHist, ?_, ?_⟩
  · have hh := reach_history h
    unfold pendingRuns at hh
    rw [hidle] at hh
    simpa using hh
  · intro i hi
    have hcd : CurDone s := by
      simp only [Phase, hidle] at hphase
      obtain ⟨_, _, _, _, _, hcd⟩ | ⟨_, _, _, _, hcd⟩ := hphase
      · exact hcd
      · exact hcd
    rw [← List.countP_eq_length_filter]
    rw [countP_wid_eq_sum i s.round s.log (fun e he =>
      ⟨(inv.logElems e he).1, (inv.logElems e he).2.1⟩)]
    have hone : ∀ r ∈ Finset.range s.round, execCount s.log (r + 1) i = 1 := by
      intro r hr
      rw [Finset.mem_range] at hr
      rcases Nat.lt_or_ge (r + 1) s.round with hlt | hge
      · exact inv.pastDone (r + 1) (by omega) hlt i (by omega)
      · have hreq : r + 1 = s.round := by omega
        rw [hreq]
        exact hcd i (by omega) (by omega)
    rw [Finset.sum_congr rfl hone]
    simp
  · intro e he
    obtain ⟨h1, h2, _, q, hq, hqc, hqp⟩ := inv.logElems e he
    exact ⟨q, hq, hqc, hqp, h1, h2⟩

/-- Witness for C7: after the concrete dispatch, worker 0 has been invoked
exactly `round` times. -/
theorem sequential_dispatch_rounds_match_script_witness :
    (cs10.log.filter (fun e => e.wid == 0)).length = cs10.round :=
  (sequential_dispatch_rounds_match_script reach_cs10 rfl).2.2.1 0 (by decide)

/-- **C8 counterexample**: "calling dispatch or shutdown after shutdown has
completed yields a defined, synchronously reported error, not a hang" is
false on the code: in a one-worker pool, after `stop()` has completed, a
`run()` call passes the (stale) ready barrier, publishes its round and
blocks at the completion barrier; the state below is reachable, the
coordinator is still inside `run`, and no thread can take any step — a
permanent deadlock, with no error reported anywhere (`run` returns `void`
and contains no validity check). -/
theorem run_after_stop_hangs_cex :
    Reach cr0 cr10 ∧ cr10.coord = .completeBarrier cw0 ∧ succs cr10 = [] :=
  ⟨reach_cr10, rfl, by decide⟩

/-- **C8 amended**: calling `run` after `stop` has completed is not
detected: for a pool with at least one worker the call deadlocks.  In any
reachable state where the workers have been joined and released (`_threads`
cleared by `stop`) and the coordinator sits at `run`'s completion barrier,
no thread has any enabled step, so the caller blocks forever
(`_threadsComplete` is 0 and nothing can ever increment it).  Calling
`stop` again instead returns as a silent no-op; neither misuse yields an
error. -/
theorem run_after_stop_deadlocks {n : Nat} {sc : List CoordOp} {s : PoolState}
    {p : Payload} (h : Reach (initState n sc) s) (hw0 : s.workers = [])
    (hn : 1 ≤ s.threadCount) (hc : s.coord = .completeBarrier p) :
    succs s = [] := by
  have inv := reach_inv h
  have hphase := inv.phase
  simp only [Phase, hc] at hphase
  have hcp : s.threadsComplete = 0 := by
    obtain ⟨hl, _⟩ | ⟨_, _, _, _, _, _, _, hcp, _⟩ := hphase
    · rw [hw0] at hl
      simp at hl
      omega
    · exact hcp
  unfold succs
  rw [hw0]
  simp only [cstep, hc]
  rw [if_neg (by omega)]
  simp

/-- Witness for the amended C8 at the concrete post-shutdown dispatch. -/
theorem run_after_stop_deadlocks_witness : succs cr10 = [] :=
  run_after_stop_deadlocks reach_cr10 rfl (by decide) rfl

/-- **C9 counterexample**: "a null callback is rejected synchronously
before any worker is signaled and does not cause a fault inside a worker"
is false on the code: dispatching a null `std::function` on a one-worker
pool is accepted without any check, the round is published
(`state == RUN` with a null callback), the worker is woken, invokes the
callback at line 229 and faults (`std::bad_function_call` escapes the
worker thread).  The faulted state below is reachable and no invocation
was ever completed. -/
theorem null_callback_worker_fault_cex :
    Reach cn0 cn7 ∧ cn7.workers = [.faulted] ∧ cn7.action = .RUN ∧
      cn7.threadCallback = none ∧ cn7.log = [] :=
  ⟨reach_cn7, rfl, rfl, rfl, rfl⟩

/-- **C9 amended**: `run` performs no validation of its callback: a null
callback is published like any other and the workers are signaled.  A
worker that invokes it faults instead of completing, so in every reachable
state whose in-flight round carries a null callback no completion has been
recorded (`completeCount = 0`) and every worker is parked, about to invoke
the null callback, or already faulted; with at least one worker the
dispatch can therefore never return. -/
theorem null_callback_never_completes {n : Nat} {sc : List CoordOp} {s : PoolState}
    {p : Payload} (h : Reach (initState n sc) s) (hc : s.coord = .completeBarrier p)
    (hnull : p.callback = none) :
    s.threadsComplete = 0 ∧
    (∀ w ∈ s.workers, w = .parked ∨ w = .running ∨ w = .faulted) := by
  have inv := reach_inv h
  have hphase := inv.phase
  simp only [Phase, hc] at hphase
  obtain ⟨hl, hact, hcb, hpp, hrd, hhist, hall, hwg, hcp, hcur, hnone, hsome⟩ |
    ⟨hw0, _, _, _, _, _, _, hcp, _⟩ := hphase
  · obtain ⟨hcm, hwi⟩ := hnone hnull
    constructor
    · rw [hcp, hwi]
    · intro w hw
      rcases hall w hw with h1 | h1 | h1 | h1 | h1
      · exact Or.inl h1
      · exact Or.inr (Or.inl h1)
      · exfalso
        subst h1
        have := List.count_pos_iff.mpr hw
        omega
      · exfalso
        subst h1
        have := List.count_pos_iff.mpr hw
        omega
      · exact Or.inr (Or.inr h1)
  · constructor
    · exact hcp
    · intro w hw
      rw [hw0] at hw
      simp at hw

/-- Witness for the amended C9 at the concrete null-callback dispatch. -/
theorem null_callback_never_completes_witness :
    cn5.threadsComplete = 0 ∧
    (∀ w ∈ cn5.workers, w = .parked ∨ w = .running ∨ w = .faulted) :=
  null_callback_never_completes reach_cn5 rfl rfl

/-- The deterministic execution of a zero-worker pool driven by one
dispatch and one shutdown: `zf0 p` … `zf10 p` are its successive states. -/
def zf0 (p : Payload) : PoolState := initState 0 [.runOp p, .stopOp]

def zf1 (p : Payload) : PoolState :=
  { zf0 p with coord := .readyBarrier p, script := [.stopOp] }

def zf2 (p : Payload) : PoolState := { zf1 p with coord := .resetWaiting p }

def zf3 (p : Payload) : PoolState :=
  { zf2 p with threadsWaiting := 0, coord := .publish p }

def zf4 (p : Payload) : PoolState :=
  { zf3 p with
    threadCallback := p.callback
    threadParam := p.param
    action := .RUN
    round := 1
    history := [p]
    coord := .completeBarrier p }

def zf5 (p : Payload) : PoolState := { zf4 p with coord := .idleReset p }

def zf6 (p : Payload) : PoolState :=
  { zf5 p with
    threadsWaiting := 0
    threadsComplete := 0
    action := .WAIT
    coord := .idle }

def zf7 (p : Payload) : PoolState :=
  { zf6 p with coord := .stopReadyBarrier, script := [] }

def zf8 (p : Payload) : PoolState := { zf7 p with coord := .publishStop }

def zf9 (p : Payload) : PoolState :=
  { zf8 p with action := .STOP, coord := .joining }

def zf10 (p : Payload) : PoolState := { zf9 p with coord := .idle, workers := [] }

theorem zreach (p : Payload) : Reach (zf0 p) (zf10 p) := by
  have h01 : Step (zf0 p) (zf1 p) := by
    simp [Step, succs, cstep, wstep, zf0, zf1, initState]
  have h12 : Step (zf1 p) (zf2 p) := by
    simp [Step, succs, cstep, wstep, zf0, zf1, zf2, initState]
  have h23 : Step (zf2 p) (zf3 p) := by
    simp [Step, succs, cstep, wstep, zf0, zf1, zf2, zf3, initState]
  have h34 : Step (zf3 p) (zf4 p) := by
    simp [Step, succs, cstep, wstep, zf0, zf1, zf2, zf3, zf4, initState]
  have h45 : Step (zf4 p) (zf5 p) := by
    simp [Step, succs, cstep, wstep, zf0, zf1, zf2, zf3, zf4, zf5, initState]
  have h56 : Step (zf5 p) (zf6 p) := by
    simp [Step, succs, cstep, wstep, zf0, zf1, zf2, zf3, zf4, zf5, zf6, initState]
  have h67 : Step (zf6 p) (zf7 p) := by
    simp [Step, succs, cstep, wstep, zf0, zf1, zf2, zf3, zf4, zf5, zf6, zf7, initState]
  have h78 : Step (zf7 p) (zf8 p) := by
    simp [Step, succs, cstep, wstep, zf0, zf1, zf2, zf3, zf4, zf5, zf6, zf7, zf8,
      initState]
  have h89 : Step (zf8 p) (zf9 p) := by
    simp [Step, succs, cstep, wstep, zf0, zf1, zf2, zf3, zf4, zf5, zf6, zf7, zf8, zf9,
      initState]
  have h910 : Step (zf9 p) (zf10 p) := by
    simp [Step, succs, cstep, wstep, zf0, zf1, zf2, zf3, zf4, zf5, zf6, zf7, zf8, zf9,
      zf10, initState]
  exact ((((((((((Relation.ReflTransGen.single h01).tail h12).tail h23).tail
    h34).tail h45).tail h56).tail h67).tail h78).tail h89).tail h910)

/-- **C10**: a pool constructed with `threadCount == 0` is accepted and
yields a no-op pool: no worker thread exists, so in every reachable state
the invocation log is empty (`run` never invokes the supplied callback),
and the deterministic `run`-then-`stop` execution completes: both calls
return (both barrier predicates `count == 0` hold trivially and `stop`
joins zero threads), leaving the pool idle with an exhausted script and no
enabled step. -/
theorem zero_worker_pool_noop :
    (∀ (sc : List CoordOp) (s : PoolState), Reach (initState 0 sc) s → s.log = []) ∧
    (∀ p : Payload, Reach (initState 0 [.runOp p, .stopOp]) (zf10 p) ∧
      (zf10 p).coord = .idle ∧ (zf10 p).script = [] ∧ (zf10 p).log = [] ∧
      succs (zf10 p) = []) := by
  constructor
  · intro sc s h
    have inv := reach_inv h
    have hN := reach_threadCount h
    cases hlog : s.log with
    | nil => rfl
    | cons e l =>
      have hwid := (inv.logElems e (by rw [hlog]; simp)).2.2.1
      rw [hN] at hwid
      exact absurd hwid (by omega)
  · intro p
    exact ⟨zreach p, rfl, rfl, rfl, rfl⟩

/-- Witness for C10 at the empty script. -/
theorem zero_worker_pool_noop_witness : (initState 0 []).log = [] :=
  zero_worker_pool_noop.1 [] (initState 0 []) Relation.ReflTransGen.refl
